import Mathlib

/-!
# Verification of the `bitonic_sort` crate

Shallow embedding of the three sorting engines of the repository:

* `src/src/bitonic_serial.rs`   — serial bitonic sort (`bitonic_sort`),
* `src/src/bitonic_parallel.rs` — thread-parallel bitonic sort (`bitonic_sort`),
* `src/src/parallel_sort.rs`    — hybrid parallel sort (`parallel_sort`).

Buffers (`Vec<T>`/`&mut [T]`) are modelled as `List α`.  The Rust code is
generic over `T : PartialOrd + Copy`; the only operations it performs on
elements are the boolean comparisons `>` (`PartialOrd::gt`), `>=`
(`PartialOrd::ge`), `<=` (`PartialOrd::le`) and, in `parallel_sort` phase 1
only, `partial_cmp(..).expect(..)`.  Accordingly the core definitions are
parameterised by boolean comparison functions `gt ge le : α → α → Bool`
(arbitrary, so that non-total "NaN-like" orders are representable), and the
wrappers used by the main claims instantiate them with a `LinearOrder`.

The thread-parallel code uses scoped threads operating on provably disjoint
index ranges of the one buffer, with a join barrier before the next phase
(see the range-disjointness theorems for claim C7); consequently each
parallel phase is modelled as the sequential composition of its tasks'
effects, which are functions of disjoint parts of the list.

`usize` values (lengths, indices, chunk sizes) are modelled as `Nat`; the
`u8` parallelism degree is a `Nat` constrained to `≤ 255` where relevant.
All recursive definitions take explicit fuel (always instantiated by the
caller with a sufficient value, mirroring the Rust loop bounds) so that
every definition is structurally recursive and kernel-evaluable.
-/

/-- Fuelled version of Rust's `usize::next_power_of_two` (least power of two
`≥ max n 1`): `nextPow2A f n` computes it for any fuel `f ≥ n`. -/
def nextPow2A : Nat → Nat → Nat
  | 0, _ => 1
  | f + 1, n => if n ≤ 1 then 1 else 2 * nextPow2A f ((n + 1) / 2)

/-- Rust's `usize::next_power_of_two`: least power of two `≥ max n 1`. -/
def nextPow2 (n : Nat) : Nat := nextPow2A n n

/-- Rust's `usize::is_power_of_two`. -/
def isPow2 (n : Nat) : Bool := n == nextPow2 n

/-- The compare-and-swap of a pair in a bitonic merge step.  Mirrors
`if (num1.get() > num2.get()) ^ reverse { Cell::swap(num1, num2) }`
(`src/src/bitonic_serial.rs:60-62`, identically in `bitonic_parallel.rs`). -/
def cswap (gt : α → α → Bool) (rev : Bool) (x y : α) : α × α :=
  if (gt x y).xor rev then (y, x) else (x, y)

/-- Compare-and-swap of the first `m` aligned pairs of two list halves; the
pair `(xs[j], ys[j])` for `j < m` is Rust's pair `(nums[j], nums[len/2+j])`.
Surplus elements (when one list runs out, i.e. the `zip` truncation in the
source) are left untouched. -/
def cswapN (gt : α → α → Bool) (rev : Bool) : Nat → List α → List α → List α × List α
  | 0, xs, ys => (xs, ys)
  | _ + 1, [], ys => ([], ys)
  | _ + 1, x :: xs, [] => (x :: xs, [])
  | m + 1, x :: xs, y :: ys =>
    let p := cswap gt rev x y
    let r := cswapN gt rev m xs ys
    (p.1 :: r.1, p.2 :: r.2)

/-- `__bitonic_merge` of `src/src/bitonic_serial.rs:53-64`: zip the first
half with the second half and compare-swap every pair. -/
def bmerge (gt : α → α → Bool) (rev : Bool) (l : List α) : List α :=
  let n := l.length / 2
  let r := cswapN gt rev n (l.take n) (l.drop n)
  r.1 ++ r.2

/-- `__bitonic_merge` of `src/src/bitonic_parallel.rs:65-105`.  With
`parallel ≤ 1` it is the serial merge.  Otherwise `size = len / (2*parallel)`
pairs go to each of the `parallel` spawned tasks (falling back to
`parallel = len/2`, `size = 1` when `size` would be `0`), so the tasks
jointly compare-swap exactly the first `parallel * size` aligned pairs
(task `i` owns pairs `[i*size, (i+1)*size)`; the ranges are disjoint, see
the C7 theorem, so the concurrent tasks equal their sequential
composition). -/
def parMerge (gt : α → α → Bool) (rev : Bool) (p : Nat) (l : List α) : List α :=
  if p ≤ 1 then bmerge gt rev l
  else
    let len := l.length
    let size := len / (2 * p)
    let m := if size = 0 then len / 2 * 1 else p * size
    let r := cswapN gt rev m (l.take (len / 2)) (l.drop (len / 2))
    r.1 ++ r.2

/-- The window loop `for i in 0..len/size { __bitonic_merge(&mut nums[i*size..(i+1)*size], ..) }`
(`src/src/bitonic_serial.rs:75-77`): `k` counts the remaining windows and is
instantiated with `len / size`; the trailing `len % size` elements are left
untouched. -/
def mergeChunksA (gt : α → α → Bool) (rev : Bool) (size : Nat) :
    Nat → List α → List α
  | 0, l => l
  | k + 1, l => bmerge gt rev (l.take size) ++ mergeChunksA gt rev size k (l.drop size)

/-- One level of the serial merge loop: all `l.length / size` windows of
width `size` merged. -/
def mergeLevel (gt : α → α → Bool) (rev : Bool) (size : Nat) (l : List α) : List α :=
  mergeChunksA gt rev size (l.length / size) l

/-- The loop `while size > 1 { ..windows..; size /= 2 }` of
`src/src/bitonic_serial.rs:74-79`, fuelled: the first argument is fuel
(callers pass the initial `size`, which bounds the number of halvings). -/
def mergeLoopA (gt : α → α → Bool) (rev : Bool) : Nat → Nat → List α → List α
  | 0, _, l => l
  | f + 1, size, l =>
    if size ≤ 1 then l
    else mergeLoopA gt rev f (size / 2) (mergeLevel gt rev size l)

/-- The full merge cascade starting at window width `size`. -/
def mergeLoop (gt : α → α → Bool) (rev : Bool) (size : Nat) (l : List α) : List α :=
  mergeLoopA gt rev size size l

/-- `__bitonic_sort` of `src/src/bitonic_serial.rs:66-81`, fuelled (callers
pass `l.length`; each recursive call halves the slice).  Sorts the first
half ascending and the second half descending, then runs the merge cascade
with the requested direction. -/
def bsortA (gt : α → α → Bool) : Nat → Bool → List α → List α
  | 0, _, l => l
  | f + 1, rev, l =>
    if l.length ≤ 1 then l
    else
      mergeLoop gt rev l.length
        (bsortA gt f false (l.take (l.length / 2)) ++
          bsortA gt f true (l.drop (l.length / 2)))

/-- `__bitonic_sort(nums, rev)` of the serial engine. -/
def bsortG (gt : α → α → Bool) (rev : Bool) (l : List α) : List α :=
  bsortA gt l.length rev l

/-- The max-finding fold
`nums.iter().fold(nums.first().unwrap(), |max, x| if max.ge(x) { max } else { x })`
(`src/src/bitonic_serial.rs:39-42`; the two parallel engines use `max > x`
instead of `max.ge(x)` — the comparison is the `pick` parameter).  The fold
runs over the whole list (including the first element) with the first
element as the initial accumulator. -/
def foldMax (pick : α → α → Bool) (x : α) (l : List α) : α :=
  l.foldl (fun m y => if pick m y then m else y) x

/-- Padding step shared by all three engines: if the length is not a power
of two, resize to the next power of two, filling with the `foldMax` of the
buffer (`pick` is `ge` in the serial engine, `gt` in the parallel ones). -/
def padPow2 (pick : α → α → Bool) (x : α) (xs : List α) : List α :=
  let l := x :: xs
  if isPow2 l.length then l
  else l ++ List.replicate (nextPow2 l.length - l.length) (foldMax pick x l)

/-- `bitonic_serial::bitonic_sort` (`src/src/bitonic_serial.rs:31-49`):
return at once on the empty buffer, else pad to a power of two (fill value
chosen with `ge`), run `__bitonic_sort(.., false)`, truncate to the
original length. -/
def bitonicSerialG (gt ge : α → α → Bool) : List α → List α
  | [] => []
  | x :: xs => (bsortG gt false (padPow2 ge x xs)).take (x :: xs).length

/-- `u8::checked_next_power_of_two().unwrap_or(u8::MAX)`
(`src/src/bitonic_parallel.rs:52`): the next power of two of the requested
parallelism, saturating to `255` when it would exceed the `u8` range
(i.e. for requests in `[129, 255]`). -/
def coercePar (p : Nat) : Nat :=
  if nextPow2 p ≤ 255 then nextPow2 p else 255

/-- The parallelism coercion of `src/src/parallel_sort.rs:23-27`:
`if parallel < 1 { 1 } else { parallel.checked_next_power_of_two().unwrap_or(u8::MAX) }`. -/
def coerceParPS (p : Nat) : Nat :=
  if p < 1 then 1 else coercePar p

/-- Merge-window loop of the parallel engine (same windows as the serial
`mergeChunksA`, but each window is merged by `parMerge` with the full
parallelism budget `p`, `src/src/bitonic_parallel.rs:136-141`). -/
def mergeChunksPA (gt : α → α → Bool) (rev : Bool) (p size : Nat) :
    Nat → List α → List α
  | 0, l => l
  | k + 1, l =>
    parMerge gt rev p (l.take size) ++ mergeChunksPA gt rev p size k (l.drop size)

/-- One level of the parallel merge loop. -/
def mergeLevelP (gt : α → α → Bool) (rev : Bool) (p size : Nat) (l : List α) : List α :=
  mergeChunksPA gt rev p size (l.length / size) l

/-- The `while size > 1` loop of `src/src/bitonic_parallel.rs:135-141`,
fuelled like `mergeLoopA`. -/
def mergeLoopPA (gt : α → α → Bool) (rev : Bool) (p : Nat) : Nat → Nat → List α → List α
  | 0, _, l => l
  | f + 1, size, l =>
    if size ≤ 1 then l
    else mergeLoopPA gt rev p f (size / 2) (mergeLevelP gt rev p size l)

/-- The parallel merge cascade starting at window width `size`. -/
def mergeLoopP (gt : α → α → Bool) (rev : Bool) (p size : Nat) (l : List α) : List α :=
  mergeLoopPA gt rev p size size l

/-- `__bitonic_sort` of `src/src/bitonic_parallel.rs:107-142`, fuelled.
With budget `parallel ≤ 1` the two recursive half-sorts run on the current
thread with the same budget; otherwise they are spawned as two scoped
threads (disjoint halves, joined before the merge cascade — modelled as
their sequential composition) with budget `parallel / 2` each.  The merge
cascade then runs with the full budget `parallel`. -/
def bsortPA (gt : α → α → Bool) : Nat → Bool → Nat → List α → List α
  | 0, _, _, l => l
  | f + 1, rev, p, l =>
    if l.length ≤ 1 then l
    else
      let q := if p ≤ 1 then p else p / 2
      mergeLoopP gt rev p l.length
        (bsortPA gt f false q (l.take (l.length / 2)) ++
          bsortPA gt f true q (l.drop (l.length / 2)))

/-- `__bitonic_sort(nums, rev, parallel)` of the parallel engine. -/
def bsortPG (gt : α → α → Bool) (rev : Bool) (p : Nat) (l : List α) : List α :=
  bsortPA gt l.length rev p l

/-- `bitonic_parallel::bitonic_sort` (`src/src/bitonic_parallel.rs:45-63`):
return at once on the empty buffer, coerce the parallelism, pad to a power
of two (fill value chosen with `>`), run `__bitonic_sort(.., false, parallel)`,
truncate to the original length. -/
def bitonicParallelG (gt : α → α → Bool) (l : List α) (p : Nat) : List α :=
  match l with
  | [] => []
  | x :: xs => (bsortPG gt false (coercePar p) (padPow2 gt x xs)).take (x :: xs).length

/-- The two-pointer merge of `src/src/parallel_sort.rs:55-72` (compare with
`<=`, push the smaller side, then `extend_from_slice` both remainders),
fuelled by the total number of elements. -/
def merge2A (le : α → α → Bool) : Nat → List α → List α → List α
  | 0, xs, ys => xs ++ ys
  | _ + 1, [], ys => ys
  | _ + 1, x :: xs, [] => x :: xs
  | f + 1, x :: xs, y :: ys =>
    if le x y then x :: merge2A le f xs (y :: ys) else y :: merge2A le f (x :: xs) ys

/-- One phase-2 window of `parallel_sort`: split the width-`size` window at
`size / 2` and two-pointer-merge the two sorted runs. -/
def windowMerge (le : α → α → Bool) (size : Nat) (w : List α) : List α :=
  merge2A le size (w.take (size / 2)) (w.drop (size / 2))

/-- Phase 1 of `parallel_sort` (`src/src/parallel_sort.rs:35-46`): `p`
scoped threads, thread `i` sorting the chunk `[i*size, (i+1)*size)` with the
standard library's unstable comparison sort (modelled by Mathlib's
`insertionSort`, which computes the same sorted permutation).  Disjoint
chunks joined at a barrier, hence modelled sequentially; a trailing
`len - p*size` remainder is untouched. -/
def sortChunksA (le : α → α → Prop) [DecidableRel le] (size : Nat) :
    Nat → List α → List α
  | 0, l => l
  | k + 1, l =>
    List.insertionSort le (l.take size) ++ sortChunksA le size k (l.drop size)

/-- One merge round of phase 2 (`src/src/parallel_sort.rs:50-77`): `q`
scoped threads, thread `i` merging the window `[i*size, (i+1)*size)`;
disjoint windows joined at a barrier, hence modelled sequentially. -/
def roundStepA (le : α → α → Bool) (size : Nat) : Nat → List α → List α
  | 0, l => l
  | k + 1, l => windowMerge le size (l.take size) ++ roundStepA le size k (l.drop size)

/-- The loop `while parallel > 1 { parallel /= 2; size *= 2; ..merge q windows.. }`
of `src/src/parallel_sort.rs:47-78`, fuelled (callers pass `p`, which
bounds the number of halvings). -/
def mergeRoundsA (le : α → α → Bool) : Nat → Nat → Nat → List α → List α
  | 0, _, _, l => l
  | f + 1, p, size, l =>
    if p ≤ 1 then l
    else mergeRoundsA le f (p / 2) (size * 2) (roundStepA le (size * 2) (p / 2) l)

/-- The `(parallel, size)` pair actually used by `parallel_sort`
(`src/src/parallel_sort.rs:28-32`): `size = len / parallel`, falling back
to `parallel = len`, `size = 1` when that quotient is `0`. -/
def psParams (len p0 : Nat) : Nat × Nat :=
  if len / p0 < 1 then (len, 1) else (p0, len / p0)

/-- Rust's `PartialOrd::gt` over a total order. -/
def gtOrd {α : Type} [LinearOrder α] : α → α → Bool := fun a b => decide (b < a)

/-- Rust's `PartialOrd::ge` over a total order. -/
def geOrd {α : Type} [LinearOrder α] : α → α → Bool := fun a b => decide (b ≤ a)

/-- Rust's `PartialOrd::le` over a total order. -/
def leOrd {α : Type} [LinearOrder α] : α → α → Bool := fun a b => decide (a ≤ b)

/-- `parallel_sort::parallel_sort` (`src/src/parallel_sort.rs:7-81`) over a
linear order (the comparator `x.partial_cmp(y).expect(..)` is total here,
so no panic can occur; see `ParallelSortF` for the fallible version):
early return on empty, pad to a power of two (fill value chosen with `>`),
coerce the parallelism, compute the chunk geometry, locally sort `parallel`
chunks, run the merge rounds, truncate to the original length. -/
def parallelSortL {α : Type} [LinearOrder α] (l : List α) (P : Nat) : List α :=
  match l with
  | [] => []
  | x :: xs =>
    let padded := padPow2 gtOrd x xs
    let len := padded.length
    let ps := psParams len (coerceParPS P)
    let phase1 := sortChunksA (α := α) (· ≤ ·) ps.2 ps.1 padded
    (mergeRoundsA leOrd ps.1 ps.1 ps.2 phase1).take (x :: xs).length

/-- `bitonic_serial::bitonic_sort` over a linear order (`>` is `<`
flipped, `>=` is `≤` flipped). -/
def bitonicSerialSort {α : Type} [LinearOrder α] (l : List α) : List α :=
  bitonicSerialG gtOrd geOrd l

/-- `bitonic_parallel::bitonic_sort` over a linear order. -/
def bitonicParallelSort {α : Type} [LinearOrder α] (l : List α) (p : Nat) : List α :=
  bitonicParallelG gtOrd l p

/-! ## Arithmetic facts about `nextPow2` and `isPow2` -/

theorem nextPow2A_zero (f : Nat) : nextPow2A f 0 = 1 := by
  cases f <;> simp [nextPow2A]

theorem nextPow2A_one (f : Nat) : nextPow2A f 1 = 1 := by
  cases f <;> simp [nextPow2A]

theorem nextPow2A_fuel : ∀ f g n, n ≤ f → n ≤ g → nextPow2A f n = nextPow2A g n := by
  intro f
  induction f with
  | zero =>
    intro g n hf _
    interval_cases n
    simp [nextPow2A_zero]
  | succ f ih =>
    intro g n hf hg
    by_cases h1 : n ≤ 1
    · interval_cases n <;> simp [nextPow2A_zero, nextPow2A_one]
    · push_neg at h1
      obtain ⟨g', rfl⟩ : ∃ g', g = g' + 1 := ⟨g - 1, by omega⟩
      have hrec : (n + 1) / 2 ≤ f := by omega
      have hrec' : (n + 1) / 2 ≤ g' := by omega
      simp only [nextPow2A, if_neg (by omega : ¬ n ≤ 1)]
      rw [ih g' ((n + 1) / 2) hrec hrec']

theorem nextPow2_eq (n : Nat) :
    nextPow2 n = if n ≤ 1 then 1 else 2 * nextPow2 ((n + 1) / 2) := by
  by_cases h1 : n ≤ 1
  · interval_cases n <;> simp [nextPow2, nextPow2A_zero, nextPow2A_one]
  · push_neg at h1
    simp only [if_neg (by omega : ¬ n ≤ 1)]
    show nextPow2A n n = _
    obtain ⟨f, rfl⟩ : ∃ f, n = f + 1 := ⟨n - 1, by omega⟩
    simp only [nextPow2A, if_neg (by omega : ¬ f + 1 ≤ 1)]
    rw [nextPow2A_fuel f ((f + 1 + 1) / 2) ((f + 1 + 1) / 2) (by omega) le_rfl]
    rfl

theorem le_nextPow2 (n : Nat) : n ≤ nextPow2 n := by
  induction n using Nat.strong_induction_on with
  | _ n ih =>
    rw [nextPow2_eq]
    by_cases h1 : n ≤ 1
    · simp only [if_pos h1]; omega
    · simp only [if_neg h1]
      have := ih ((n + 1) / 2) (by omega)
      omega

theorem nextPow2_pos (n : Nat) : 0 < nextPow2 n := by
  induction n using Nat.strong_induction_on with
  | _ n ih =>
    rw [nextPow2_eq]
    by_cases h1 : n ≤ 1
    · simp [h1]
    · simp only [if_neg h1]
      have := ih ((n + 1) / 2) (by omega)
      omega

theorem nextPow2_pow2 (n : Nat) : ∃ k, nextPow2 n = 2 ^ k := by
  induction n using Nat.strong_induction_on with
  | _ n ih =>
    rw [nextPow2_eq]
    by_cases h1 : n ≤ 1
    · exact ⟨0, by simp [h1]⟩
    · obtain ⟨k, hk⟩ := ih ((n + 1) / 2) (by omega)
      exact ⟨k + 1, by simp [if_neg h1, hk]; ring⟩

theorem nextPow2_le_pow2 (n k : Nat) (h : n ≤ 2 ^ k) : nextPow2 n ≤ 2 ^ k := by
  induction n using Nat.strong_induction_on generalizing k with
  | _ n ih =>
    rw [nextPow2_eq]
    by_cases h1 : n ≤ 1
    · simp only [if_neg, if_pos h1]
      exact Nat.one_le_two_pow
    · simp only [if_neg h1]
      obtain ⟨k', rfl⟩ : ∃ k', k = k' + 1 := by
        rcases k with _ | k'
        · exact absurd h (by omega)
        · exact ⟨k', rfl⟩
      have hrec : (n + 1) / 2 ≤ 2 ^ k' := by
        have : 2 ^ (k' + 1) = 2 * 2 ^ k' := by ring
        omega
      have := ih ((n + 1) / 2) (by omega) k' hrec
      have : 2 ^ (k' + 1) = 2 * 2 ^ k' := by ring
      omega

theorem nextPow2_pow2_self (k : Nat) : nextPow2 (2 ^ k) = 2 ^ k :=
  le_antisymm (nextPow2_le_pow2 _ _ le_rfl) (le_nextPow2 _)

theorem isPow2_iff (n : Nat) : isPow2 n = true ↔ ∃ k, n = 2 ^ k := by
  constructor
  · intro h
    obtain ⟨k, hk⟩ := nextPow2_pow2 n
    exact ⟨k, by simpa [isPow2, hk] using h⟩
  · rintro ⟨k, rfl⟩
    simp [isPow2, nextPow2_pow2_self]

/-! ## Permutation and length preservation (any comparison function) -/

section PermLength

variable {α : Type} (gt : α → α → Bool) (rev : Bool)

theorem cswap_cons_perm (x y : α) (t : List α) :
    List.Perm ((cswap gt rev x y).1 :: (cswap gt rev x y).2 :: t) (x :: y :: t) := by
  unfold cswap
  by_cases h : ((gt x y).xor rev) = true
  · simp only [if_pos h]
    exact List.Perm.swap x y t
  · simp only [if_neg h]
    exact List.Perm.refl _

theorem cswapN_perm : ∀ (m : Nat) (xs ys : List α),
    List.Perm ((cswapN gt rev m xs ys).1 ++ (cswapN gt rev m xs ys).2) (xs ++ ys) := by
  intro m
  induction m with
  | zero => intro xs ys; exact List.Perm.refl _
  | succ m ih =>
    intro xs ys
    cases xs with
    | nil => exact List.Perm.refl _
    | cons x xs =>
      cases ys with
      | nil => exact List.Perm.refl _
      | cons y ys =>
        have step : (cswapN gt rev (m + 1) (x :: xs) (y :: ys)).1 ++
            (cswapN gt rev (m + 1) (x :: xs) (y :: ys)).2 =
            (cswap gt rev x y).1 ::
              ((cswapN gt rev m xs ys).1 ++
                (cswap gt rev x y).2 :: (cswapN gt rev m xs ys).2) := by
          simp [cswapN]
        rw [step]
        have h1 : List.Perm
            ((cswap gt rev x y).1 ::
              ((cswapN gt rev m xs ys).1 ++ (cswap gt rev x y).2 :: (cswapN gt rev m xs ys).2))
            ((cswap gt rev x y).1 :: (cswap gt rev x y).2 ::
              ((cswapN gt rev m xs ys).1 ++ (cswapN gt rev m xs ys).2)) :=
          (List.perm_middle).cons _
        have h2 : List.Perm
            ((cswap gt rev x y).1 :: (cswap gt rev x y).2 ::
              ((cswapN gt rev m xs ys).1 ++ (cswapN gt rev m xs ys).2))
            ((cswap gt rev x y).1 :: (cswap gt rev x y).2 :: (xs ++ ys)) :=
          ((ih xs ys).cons _).cons _
        have h3 := cswap_cons_perm gt rev x y (xs ++ ys)
        have h4 : List.Perm (x :: y :: (xs ++ ys)) ((x :: xs) ++ (y :: ys)) :=
          (List.perm_middle.symm).cons x
        exact ((h1.trans h2).trans h3).trans h4

theorem bmerge_perm (l : List α) : List.Perm (bmerge gt rev l) l := by
  unfold bmerge
  exact (cswapN_perm gt rev _ _ _).trans (by rw [List.take_append_drop])

theorem bmerge_length (l : List α) : (bmerge gt rev l).length = l.length :=
  (bmerge_perm gt rev l).length_eq

theorem parMerge_perm (p : Nat) (l : List α) : List.Perm (parMerge gt rev p l) l := by
  unfold parMerge
  by_cases h : p ≤ 1
  · simpa [h] using bmerge_perm gt rev l
  · simp only [if_neg h]
    exact (cswapN_perm gt rev _ _ _).trans (by rw [List.take_append_drop])

theorem parMerge_length (p : Nat) (l : List α) : (parMerge gt rev p l).length = l.length :=
  (parMerge_perm gt rev p l).length_eq

theorem mergeChunksA_perm (size : Nat) :
    ∀ (k : Nat) (l : List α), List.Perm (mergeChunksA gt rev size k l) l := by
  intro k
  induction k with
  | zero => intro l; exact List.Perm.refl _
  | succ k ih =>
    intro l
    show List.Perm (bmerge gt rev (l.take size) ++ mergeChunksA gt rev size k (l.drop size)) l
    have := ((bmerge_perm gt rev (l.take size)).append (ih (l.drop size)))
    rwa [List.take_append_drop] at this

theorem mergeLevel_perm (size : Nat) (l : List α) : List.Perm (mergeLevel gt rev size l) l :=
  mergeChunksA_perm gt rev size _ l

theorem mergeLoopA_perm :
    ∀ (f size : Nat) (l : List α), List.Perm (mergeLoopA gt rev f size l) l := by
  intro f
  induction f with
  | zero => intro size l; exact List.Perm.refl _
  | succ f ih =>
    intro size l
    show List.Perm (if size ≤ 1 then l else _) l
    by_cases h : size ≤ 1
    · simp [h]
    · simp only [if_neg h]
      exact (ih _ _).trans (mergeLevel_perm gt rev size l)

theorem mergeLoop_perm (size : Nat) (l : List α) : List.Perm (mergeLoop gt rev size l) l :=
  mergeLoopA_perm gt rev size size l

theorem bsortA_perm : ∀ (f : Nat) (rv : Bool) (l : List α), List.Perm (bsortA gt f rv l) l := by
  intro f
  induction f with
  | zero => intro rv l; exact List.Perm.refl _
  | succ f ih =>
    intro rv l
    show List.Perm (if l.length ≤ 1 then l else _) l
    by_cases h : l.length ≤ 1
    · simp [h]
    · simp only [if_neg h]
      have hh := (ih false (l.take (l.length / 2))).append (ih true (l.drop (l.length / 2)))
      rw [List.take_append_drop] at hh
      exact (mergeLoop_perm gt rv _ _).trans hh

theorem bsortG_perm (l : List α) : List.Perm (bsortG gt rev l) l := bsortA_perm gt _ rev l

theorem bsortG_length (l : List α) : (bsortG gt rev l).length = l.length :=
  (bsortG_perm gt rev l).length_eq

theorem mergeChunksPA_perm (p size : Nat) :
    ∀ (k : Nat) (l : List α), List.Perm (mergeChunksPA gt rev p size k l) l := by
  intro k
  induction k with
  | zero => intro l; exact List.Perm.refl _
  | succ k ih =>
    intro l
    show List.Perm (parMerge gt rev p (l.take size) ++ mergeChunksPA gt rev p size k (l.drop size)) l
    have := ((parMerge_perm gt rev p (l.take size)).append (ih (l.drop size)))
    rwa [List.take_append_drop] at this

theorem mergeLoopPA_perm (p : Nat) :
    ∀ (f size : Nat) (l : List α), List.Perm (mergeLoopPA gt rev p f size l) l := by
  intro f
  induction f with
  | zero => intro size l; exact List.Perm.refl _
  | succ f ih =>
    intro size l
    show List.Perm (if size ≤ 1 then l else _) l
    by_cases h : size ≤ 1
    · simp [h]
    · simp only [if_neg h]
      exact (ih _ _).trans (mergeChunksPA_perm gt rev p size _ l)

theorem bsortPA_perm : ∀ (f : Nat) (rv : Bool) (p : Nat) (l : List α),
    List.Perm (bsortPA gt f rv p l) l := by
  intro f
  induction f with
  | zero => intro rv p l; exact List.Perm.refl _
  | succ f ih =>
    intro rv p l
    show List.Perm (if l.length ≤ 1 then l else _) l
    by_cases h : l.length ≤ 1
    · simp [h]
    · simp only [if_neg h]
      have hh := (ih false (if p ≤ 1 then p else p / 2) (l.take (l.length / 2))).append
        (ih true (if p ≤ 1 then p else p / 2) (l.drop (l.length / 2)))
      rw [List.take_append_drop] at hh
      exact (mergeLoopPA_perm gt rv _ _ _ _).trans hh

theorem bsortPG_perm (p : Nat) (l : List α) : List.Perm (bsortPG gt rev p l) l :=
  bsortPA_perm gt _ rev p l

theorem bsortPG_length (p : Nat) (l : List α) : (bsortPG gt rev p l).length = l.length :=
  (bsortPG_perm gt rev p l).length_eq

end PermLength

/-! ## Permutation and length preservation for `parallel_sort` -/

section PSPermLength

variable {α : Type}

theorem merge2A_perm (le : α → α → Bool) :
    ∀ (f : Nat) (xs ys : List α), List.Perm (merge2A le f xs ys) (xs ++ ys) := by
  intro f
  induction f with
  | zero => intro xs ys; exact List.Perm.refl _
  | succ f ih =>
    intro xs ys
    cases xs with
    | nil => simp [merge2A]
    | cons x xs =>
      cases ys with
      | nil => simp [merge2A]
      | cons y ys =>
        show List.Perm (if le x y then x :: merge2A le f xs (y :: ys)
          else y :: merge2A le f (x :: xs) ys) _
        by_cases h : le x y
        · simpa [h] using (ih xs (y :: ys)).cons x
        · simp only [if_neg h]
          have h1 := (ih (x :: xs) ys).cons y
          have h2 : List.Perm (y :: ((x :: xs) ++ ys)) ((x :: xs) ++ (y :: ys)) :=
            List.perm_middle.symm
          exact h1.trans h2

theorem merge2A_length (le : α → α → Bool) (f : Nat) (xs ys : List α) :
    (merge2A le f xs ys).length = xs.length + ys.length := by
  simpa using (merge2A_perm le f xs ys).length_eq

theorem windowMerge_perm (le : α → α → Bool) (size : Nat) (w : List α) :
    List.Perm (windowMerge le size w) w := by
  unfold windowMerge
  exact (merge2A_perm le size _ _).trans (by rw [List.take_append_drop])

theorem roundStepA_perm (le : α → α → Bool) (size : Nat) :
    ∀ (k : Nat) (l : List α), List.Perm (roundStepA le size k l) l := by
  intro k
  induction k with
  | zero => intro l; exact List.Perm.refl _
  | succ k ih =>
    intro l
    show List.Perm (windowMerge le size (l.take size) ++ roundStepA le size k (l.drop size)) l
    have := (windowMerge_perm le size (l.take size)).append (ih (l.drop size))
    rwa [List.take_append_drop] at this

theorem mergeRoundsA_perm (le : α → α → Bool) :
    ∀ (f p size : Nat) (l : List α), List.Perm (mergeRoundsA le f p size l) l := by
  intro f
  induction f with
  | zero => intro p size l; exact List.Perm.refl _
  | succ f ih =>
    intro p size l
    show List.Perm (if p ≤ 1 then l else _) l
    by_cases h : p ≤ 1
    · simp [h]
    · simp only [if_neg h]
      exact (ih _ _ _).trans (roundStepA_perm le _ _ l)

theorem sortChunksA_perm (le : α → α → Prop) [DecidableRel le] (size : Nat) :
    ∀ (k : Nat) (l : List α), List.Perm (sortChunksA le size k l) l := by
  intro k
  induction k with
  | zero => intro l; exact List.Perm.refl _
  | succ k ih =>
    intro l
    show List.Perm (List.insertionSort le (l.take size) ++ sortChunksA le size k (l.drop size)) l
    have := (List.perm_insertionSort le (l.take size)).append (ih (l.drop size))
    rwa [List.take_append_drop] at this

end PSPermLength

/-! ## Padding structure and the max-fold -/

section Padding

variable {α : Type}

theorem isPow2_nextPow2_eq {n : Nat} (h : isPow2 n = true) : nextPow2 n = n :=
  (Nat.beq_eq_true_eq _ _ |>.mp h).symm

theorem padPow2_eq (pick : α → α → Bool) (x : α) (xs : List α) :
    padPow2 pick x xs =
      (x :: xs) ++
        List.replicate (nextPow2 (x :: xs).length - (x :: xs).length)
          (foldMax pick x (x :: xs)) := by
  unfold padPow2
  by_cases h : isPow2 (x :: xs).length = true
  · rw [if_pos h, isPow2_nextPow2_eq h]
    simp
  · rw [if_neg h]

theorem padPow2_length (pick : α → α → Bool) (x : α) (xs : List α) :
    (padPow2 pick x xs).length = nextPow2 (x :: xs).length := by
  rw [padPow2_eq, List.length_append, List.length_replicate]
  have := le_nextPow2 (x :: xs).length
  omega

theorem le_foldl_max [LinearOrder α] : ∀ (l : List α) (x : α), x ≤ l.foldl max x := by
  intro l
  induction l with
  | nil => intro x; exact le_rfl
  | cons y t ih =>
    intro x
    exact le_trans (le_max_left x y) (ih (max x y))

theorem mem_le_foldl_max [LinearOrder α] :
    ∀ (l : List α) (x y : α), y ∈ l → y ≤ l.foldl max x := by
  intro l
  induction l with
  | nil => intro x y h; cases h
  | cons z t ih =>
    intro x y h
    rcases List.mem_cons.mp h with rfl | h
    · exact le_trans (le_max_right x y) (le_foldl_max t (max x y))
    · exact ih (max x z) y h

theorem foldl_max_mem [LinearOrder α] : ∀ (l : List α) (x : α), l.foldl max x ∈ x :: l := by
  intro l
  induction l with
  | nil => intro x; simp
  | cons y t ih =>
    intro x
    show List.foldl max (max x y) t ∈ x :: y :: t
    rcases max_choice x y with hm | hm <;> rw [hm]
    · rcases List.mem_cons.mp (ih x) with h3 | h3
      · simp [h3]
      · simp [h3]
    · rcases List.mem_cons.mp (ih y) with h3 | h3
      · simp [h3]
      · simp [h3]

theorem foldMax_eq_foldl_max [LinearOrder α] (pick : α → α → Bool)
    (hpick : ∀ a b : α, if pick a b then b ≤ a else a ≤ b) (x : α) (l : List α) :
    foldMax pick x l = l.foldl max x := by
  unfold foldMax
  congr 1
  funext m y
  have := hpick m y
  by_cases h : pick m y
  · rw [if_pos h] at this ⊢
    exact (max_eq_left this).symm
  · rw [if_neg h] at this ⊢
    exact (max_eq_right this).symm

theorem hpick_ge [LinearOrder α] :
    ∀ a b : α, if (fun a b : α => decide (b ≤ a)) a b then b ≤ a else a ≤ b := by
  intro a b
  by_cases h : b ≤ a <;> simp [h]
  exact le_of_not_le h

theorem hpick_gt [LinearOrder α] :
    ∀ a b : α, if (fun a b : α => decide (b < a)) a b then b ≤ a else a ≤ b := by
  intro a b
  by_cases h : b < a <;> simp [h]
  · exact le_of_lt h
  · exact le_of_not_lt h

end Padding

/-! ## Length restoration by the three wrappers -/

section WrapperLength

variable {α : Type}

theorem bitonicSerialG_length (gt ge : α → α → Bool) (l : List α) :
    (bitonicSerialG gt ge l).length = l.length := by
  cases l with
  | nil => rfl
  | cons x xs =>
    show ((bsortG gt false (padPow2 ge x xs)).take (x :: xs).length).length = _
    rw [List.length_take, bsortG_length, padPow2_length]
    have := le_nextPow2 (x :: xs).length
    omega

theorem bitonicParallelG_length (gt : α → α → Bool) (l : List α) (p : Nat) :
    (bitonicParallelG gt l p).length = l.length := by
  cases l with
  | nil => rfl
  | cons x xs =>
    show ((bsortPG gt false (coercePar p) (padPow2 gt x xs)).take (x :: xs).length).length = _
    rw [List.length_take, bsortPG_length, padPow2_length]
    have := le_nextPow2 (x :: xs).length
    omega

theorem parallelSortL_length [LinearOrder α] (l : List α) (P : Nat) :
    (parallelSortL l P).length = l.length := by
  cases l with
  | nil => rfl
  | cons x xs =>
    show ((mergeRoundsA _ _ _ _ (sortChunksA _ _ _ (padPow2 _ x xs))).take
      (x :: xs).length).length = _
    rw [List.length_take, (mergeRoundsA_perm _ _ _ _ _).length_eq,
      (sortChunksA_perm _ _ _ _).length_eq, padPow2_length]
    have := le_nextPow2 (x :: xs).length
    omega

end WrapperLength

/-! ## Fuel robustness: the fuelled loops are fuel-independent once the fuel
is at least the Rust loop bound -/

section Fuel

variable {α : Type} (gt : α → α → Bool) (rev : Bool)

theorem mergeLoopA_small (f size : Nat) (l : List α) (h : size ≤ 1) :
    mergeLoopA gt rev f size l = l := by
  cases f with
  | zero => rfl
  | succ f => simp [mergeLoopA, h]

theorem mergeLoopA_fuel : ∀ (f g size : Nat) (l : List α), size ≤ f → size ≤ g →
    mergeLoopA gt rev f size l = mergeLoopA gt rev g size l := by
  intro f
  induction f with
  | zero =>
    intro g size l hf _
    rw [mergeLoopA_small gt rev 0 size l (by omega),
      mergeLoopA_small gt rev g size l (by omega)]
  | succ f ih =>
    intro g size l hf hg
    by_cases h1 : size ≤ 1
    · rw [mergeLoopA_small gt rev _ _ _ h1, mergeLoopA_small gt rev _ _ _ h1]
    · obtain ⟨g', rfl⟩ : ∃ g', g = g' + 1 := ⟨g - 1, by omega⟩
      show (if size ≤ 1 then l else mergeLoopA gt rev f (size / 2) (mergeLevel gt rev size l)) =
        (if size ≤ 1 then l else mergeLoopA gt rev g' (size / 2) (mergeLevel gt rev size l))
      rw [if_neg h1, if_neg h1]
      exact ih g' (size / 2) _ (by omega) (by omega)

theorem bsortA_fuel : ∀ (f g : Nat) (rv : Bool) (l : List α), l.length ≤ f → l.length ≤ g →
    bsortA gt f rv l = bsortA gt g rv l := by
  intro f
  induction f with
  | zero =>
    intro g rv l hf _
    have : l = [] := List.length_eq_zero.mp (by omega)
    subst this
    cases g with
    | zero => rfl
    | succ g => simp [bsortA]
  | succ f ih =>
    intro g rv l hf hg
    by_cases h1 : l.length ≤ 1
    · cases g with
      | zero =>
        have : l = [] := List.length_eq_zero.mp (by omega)
        subst this
        simp [bsortA]
      | succ g => simp [bsortA, h1]
    · obtain ⟨g', rfl⟩ : ∃ g', g = g' + 1 := ⟨g - 1, by omega⟩
      show (if l.length ≤ 1 then l else
          mergeLoop gt rv l.length
            (bsortA gt f false (l.take (l.length / 2)) ++
              bsortA gt f true (l.drop (l.length / 2)))) =
        (if l.length ≤ 1 then l else
          mergeLoop gt rv l.length
            (bsortA gt g' false (l.take (l.length / 2)) ++
              bsortA gt g' true (l.drop (l.length / 2))))
      rw [if_neg h1, if_neg h1]
      rw [ih g' false _ (by rw [List.length_take]; omega) (by rw [List.length_take]; omega),
        ih g' true _ (by rw [List.length_drop]; omega) (by rw [List.length_drop]; omega)]

theorem bsortG_eq (l : List α) (rv : Bool) :
    bsortG gt rv l = if l.length ≤ 1 then l
      else mergeLoop gt rv l.length
        (bsortG gt false (l.take (l.length / 2)) ++ bsortG gt true (l.drop (l.length / 2))) := by
  by_cases h1 : l.length ≤ 1
  · rw [if_pos h1]
    unfold bsortG
    cases hl : l.length with
    | zero =>
      have : l = [] := List.length_eq_zero.mp hl
      subst this; rfl
    | succ n =>
      have : n = 0 := by omega
      subst this
      simp [bsortA, h1]
  · rw [if_neg h1]
    have h2 : bsortG gt rv l = bsortA gt (l.length + 1) rv l :=
      bsortA_fuel gt l.length (l.length + 1) rv l le_rfl (by omega)
    rw [h2]
    show (if l.length ≤ 1 then l else
      mergeLoop gt rv l.length
        (bsortA gt l.length false (l.take (l.length / 2)) ++
          bsortA gt l.length true (l.drop (l.length / 2)))) = _
    rw [if_neg h1]
    rw [bsortA_fuel gt l.length (l.take (l.length / 2)).length false _
        (by rw [List.length_take]; omega) le_rfl,
      bsortA_fuel gt l.length (l.drop (l.length / 2)).length true _
        (by rw [List.length_drop]; omega) le_rfl]
    rfl

theorem mergeLoopPA_small (p f size : Nat) (l : List α) (h : size ≤ 1) :
    mergeLoopPA gt rev p f size l = l := by
  cases f with
  | zero => rfl
  | succ f => simp [mergeLoopPA, h]

theorem mergeLoopPA_fuel (p : Nat) : ∀ (f g size : Nat) (l : List α), size ≤ f → size ≤ g →
    mergeLoopPA gt rev p f size l = mergeLoopPA gt rev p g size l := by
  intro f
  induction f with
  | zero =>
    intro g size l hf _
    rw [mergeLoopPA_small gt rev p 0 size l (by omega),
      mergeLoopPA_small gt rev p g size l (by omega)]
  | succ f ih =>
    intro g size l hf hg
    by_cases h1 : size ≤ 1
    · rw [mergeLoopPA_small gt rev _ _ _ _ h1, mergeLoopPA_small gt rev _ _ _ _ h1]
    · obtain ⟨g', rfl⟩ : ∃ g', g = g' + 1 := ⟨g - 1, by omega⟩
      show (if size ≤ 1 then l else
          mergeLoopPA gt rev p f (size / 2) (mergeLevelP gt rev p size l)) =
        (if size ≤ 1 then l else
          mergeLoopPA gt rev p g' (size / 2) (mergeLevelP gt rev p size l))
      rw [if_neg h1, if_neg h1]
      exact ih g' (size / 2) _ (by omega) (by omega)

theorem bsortPA_fuel : ∀ (f g : Nat) (rv : Bool) (p : Nat) (l : List α),
    l.length ≤ f → l.length ≤ g → bsortPA gt f rv p l = bsortPA gt g rv p l := by
  intro f
  induction f with
  | zero =>
    intro g rv p l hf _
    have : l = [] := List.length_eq_zero.mp (by omega)
    subst this
    cases g with
    | zero => rfl
    | succ g => simp [bsortPA]
  | succ f ih =>
    intro g rv p l hf hg
    by_cases h1 : l.length ≤ 1
    · cases g with
      | zero =>
        have : l = [] := List.length_eq_zero.mp (by omega)
        subst this
        simp [bsortPA]
      | succ g => simp [bsortPA, h1]
    · obtain ⟨g', rfl⟩ : ∃ g', g = g' + 1 := ⟨g - 1, by omega⟩
      show (if l.length ≤ 1 then l else
          mergeLoopP gt rv p l.length
            (bsortPA gt f false (if p ≤ 1 then p else p / 2) (l.take (l.length / 2)) ++
              bsortPA gt f true (if p ≤ 1 then p else p / 2) (l.drop (l.length / 2)))) =
        (if l.length ≤ 1 then l else
          mergeLoopP gt rv p l.length
            (bsortPA gt g' false (if p ≤ 1 then p else p / 2) (l.take (l.length / 2)) ++
              bsortPA gt g' true (if p ≤ 1 then p else p / 2) (l.drop (l.length / 2))))
      rw [if_neg h1, if_neg h1]
      rw [ih g' false _ _ (by rw [List.length_take]; omega) (by rw [List.length_take]; omega),
        ih g' true _ _ (by rw [List.length_drop]; omega) (by rw [List.length_drop]; omega)]

theorem bsortPG_eq (l : List α) (rv : Bool) (p : Nat) :
    bsortPG gt rv p l = if l.length ≤ 1 then l
      else
        mergeLoopP gt rv p l.length
          (bsortPG gt false (if p ≤ 1 then p else p / 2) (l.take (l.length / 2)) ++
            bsortPG gt true (if p ≤ 1 then p else p / 2) (l.drop (l.length / 2))) := by
  by_cases h1 : l.length ≤ 1
  · rw [if_pos h1]
    unfold bsortPG
    cases hl : l.length with
    | zero =>
      have : l = [] := List.length_eq_zero.mp hl
      subst this; rfl
    | succ n =>
      have : n = 0 := by omega
      subst this
      simp [bsortPA, h1]
  · rw [if_neg h1]
    have h2 : bsortPG gt rv p l = bsortPA gt (l.length + 1) rv p l :=
      bsortPA_fuel gt l.length (l.length + 1) rv p l le_rfl (by omega)
    rw [h2]
    show (if l.length ≤ 1 then l else
      mergeLoopP gt rv p l.length
        (bsortPA gt l.length false (if p ≤ 1 then p else p / 2) (l.take (l.length / 2)) ++
          bsortPA gt l.length true (if p ≤ 1 then p else p / 2) (l.drop (l.length / 2)))) = _
    rw [if_neg h1]
    rw [bsortPA_fuel gt l.length (l.take (l.length / 2)).length false _ _
        (by rw [List.length_take]; omega) le_rfl,
      bsortPA_fuel gt l.length (l.drop (l.length / 2)).length true _ _
        (by rw [List.length_drop]; omega) le_rfl]
    rfl

theorem mergeRoundsA_small (le' : α → α → Bool) (f p size : Nat) (l : List α) (h : p ≤ 1) :
    mergeRoundsA le' f p size l = l := by
  cases f with
  | zero => rfl
  | succ f => simp [mergeRoundsA, h]

theorem mergeRoundsA_fuel (le' : α → α → Bool) :
    ∀ (f g p size : Nat) (l : List α), p ≤ f → p ≤ g →
    mergeRoundsA le' f p size l = mergeRoundsA le' g p size l := by
  intro f
  induction f with
  | zero =>
    intro g p size l hf _
    rw [mergeRoundsA_small le' 0 p size l (by omega),
      mergeRoundsA_small le' g p size l (by omega)]
  | succ f ih =>
    intro g p size l hf hg
    by_cases h1 : p ≤ 1
    · rw [mergeRoundsA_small le' _ _ _ _ h1, mergeRoundsA_small le' _ _ _ _ h1]
    · obtain ⟨g', rfl⟩ : ∃ g', g = g' + 1 := ⟨g - 1, by omega⟩
      show (if p ≤ 1 then l else
          mergeRoundsA le' f (p / 2) (size * 2) (roundStepA le' (size * 2) (p / 2) l)) =
        (if p ≤ 1 then l else
          mergeRoundsA le' g' (p / 2) (size * 2) (roundStepA le' (size * 2) (p / 2) l))
      rw [if_neg h1, if_neg h1]
      exact ih g' (p / 2) _ _ (by omega) (by omega)

end Fuel

/-! ## For a power-of-two budget the parallel bitonic engine computes
exactly the serial algorithm (its merge covers all `len/2` pairs) -/

section ParSerial

variable {α : Type} (gt : α → α → Bool) (rev : Bool)

theorem pow2_half {j : Nat} (hj : 1 ≤ j) : (2 : Nat) ^ j / 2 = 2 ^ (j - 1) := by
  have h2 : (2 : Nat) = 2 ^ 1 := by norm_num
  calc (2:Nat) ^ j / 2 = 2 ^ j / 2 ^ 1 := by rw [← h2]
    _ = 2 ^ (j - 1) := Nat.pow_div hj (by norm_num)

theorem parMerge_eq_bmerge (p : Nat) (l : List α)
    (hp : p ≤ 1 ∨ ∃ j, p = 2 ^ j) (hl : ∃ k, l.length = 2 ^ k) :
    parMerge gt rev p l = bmerge gt rev l := by
  by_cases h : p ≤ 1
  · simp [parMerge, h]
  · rcases hp with hp | ⟨j, rfl⟩
    · omega
    unfold parMerge
    rw [if_neg h]
    obtain ⟨k, hk⟩ := hl
    have hm : (if l.length / (2 * 2 ^ j) = 0 then l.length / 2 * 1
        else 2 ^ j * (l.length / (2 * 2 ^ j))) = l.length / 2 := by
      by_cases hc : l.length / (2 * 2 ^ j) = 0
      · simp [hc]
      · rw [if_neg hc]
        have h2p : 2 * 2 ^ j ≤ l.length := by
          by_contra hcon
          push_neg at hcon
          exact hc (Nat.div_eq_of_lt hcon)
        have hpow : 2 * 2 ^ j = 2 ^ (j + 1) := by rw [pow_succ]; ring
        have hj1 : j + 1 ≤ k := by
          rw [hk, hpow] at h2p
          exact (Nat.pow_le_pow_iff_right (by norm_num)).mp h2p
        rw [hk, hpow, Nat.pow_div hj1 (by norm_num), ← pow_add, pow2_half (by omega)]
        congr 1
        omega
    show (cswapN gt rev
        (if l.length / (2 * 2 ^ j) = 0 then l.length / 2 * 1
          else 2 ^ j * (l.length / (2 * 2 ^ j)))
        (List.take (l.length / 2) l) (List.drop (l.length / 2) l)).1 ++
      (cswapN gt rev
        (if l.length / (2 * 2 ^ j) = 0 then l.length / 2 * 1
          else 2 ^ j * (l.length / (2 * 2 ^ j)))
        (List.take (l.length / 2) l) (List.drop (l.length / 2) l)).2 = bmerge gt rev l
    rw [hm]
    rfl

theorem mergeChunksPA_eq (p size : Nat)
    (hp : p ≤ 1 ∨ ∃ j, p = 2 ^ j) (hsize : ∃ j, size = 2 ^ j) :
    ∀ (k : Nat) (l : List α), k * size ≤ l.length →
    mergeChunksPA gt rev p size k l = mergeChunksA gt rev size k l := by
  intro k
  induction k with
  | zero => intro l _; rfl
  | succ k ih =>
    intro l hkl
    obtain ⟨j, rfl⟩ := hsize
    have hsl : 2 ^ j ≤ l.length := by
      have : 1 * 2 ^ j ≤ (k + 1) * 2 ^ j := Nat.mul_le_mul_right _ (by omega)
      omega
    show parMerge gt rev p (l.take (2 ^ j)) ++ _ = bmerge gt rev (l.take (2 ^ j)) ++ _
    rw [parMerge_eq_bmerge gt rev p (l.take (2 ^ j)) hp
      ⟨j, by rw [List.length_take]; omega⟩]
    congr 1
    refine ih (l.drop (2 ^ j)) ?_
    rw [List.length_drop]
    have : (k + 1) * 2 ^ j = k * 2 ^ j + 2 ^ j := by ring
    omega

theorem mergeLevelP_eq (p size : Nat) (l : List α)
    (hp : p ≤ 1 ∨ ∃ j, p = 2 ^ j) (hsize : ∃ j, size = 2 ^ j) :
    mergeLevelP gt rev p size l = mergeLevel gt rev size l :=
  mergeChunksPA_eq gt rev p size hp hsize _ l (Nat.div_mul_le_self _ _)

theorem mergeLoopPA_eq (p : Nat) (hp : p ≤ 1 ∨ ∃ j, p = 2 ^ j) :
    ∀ (f size : Nat) (l : List α), (∃ j, size = 2 ^ j) →
    mergeLoopPA gt rev p f size l = mergeLoopA gt rev f size l := by
  intro f
  induction f with
  | zero => intro size l _; rfl
  | succ f ih =>
    intro size l hsize
    by_cases h1 : size ≤ 1
    · rw [mergeLoopPA_small gt rev _ _ _ _ h1, mergeLoopA_small gt rev _ _ _ h1]
    · show (if size ≤ 1 then l else
          mergeLoopPA gt rev p f (size / 2) (mergeLevelP gt rev p size l)) =
        (if size ≤ 1 then l else
          mergeLoopA gt rev f (size / 2) (mergeLevel gt rev size l))
      rw [if_neg h1, if_neg h1]
      obtain ⟨j, rfl⟩ := hsize
      have hj : 1 ≤ j := by
        rcases Nat.eq_zero_or_pos j with rfl | hj
        · omega
        · omega
      rw [mergeLevelP_eq gt rev p _ l hp ⟨j, rfl⟩]
      rw [pow2_half hj]
      exact ih _ _ ⟨j - 1, rfl⟩

theorem bsortPG_eq_bsortG :
    ∀ (n : Nat) (l : List α) (rv : Bool) (p : Nat), l.length ≤ n →
    (p ≤ 1 ∨ ∃ j, p = 2 ^ j) → (∃ k, l.length = 2 ^ k) →
    bsortPG gt rv p l = bsortG gt rv l := by
  intro n
  induction n with
  | zero =>
    intro l rv p h0 _ hk
    obtain ⟨k, hk⟩ := hk
    have := pow_pos (show (0:Nat) < 2 by norm_num) k
    omega
  | succ n ih =>
    intro l rv p hn hp hk
    obtain ⟨k, hk⟩ := hk
    rw [bsortPG_eq, bsortG_eq]
    by_cases h1 : l.length ≤ 1
    · rw [if_pos h1, if_pos h1]
    · rw [if_neg h1, if_neg h1]
      have hk1 : 1 ≤ k := by
        rcases Nat.eq_zero_or_pos k with rfl | h
        · simp at hk; omega
        · exact h
      have hhalf : l.length / 2 = 2 ^ (k - 1) := by rw [hk, pow2_half hk1]
      have htl : (l.take (l.length / 2)).length = 2 ^ (k - 1) := by
        rw [List.length_take]
        have : l.length / 2 ≤ l.length := Nat.div_le_self _ _
        omega
      have hdl : (l.drop (l.length / 2)).length = 2 ^ (k - 1) := by
        rw [List.length_drop, hhalf, hk]
        have h2 : (2:Nat) ^ k = 2 ^ (k - 1) * 2 := by
          rw [← pow_succ]
          congr 1
          omega
        omega
      have hq : (if p ≤ 1 then p else p / 2) ≤ 1 ∨ ∃ j, (if p ≤ 1 then p else p / 2) = 2 ^ j := by
        by_cases hple : p ≤ 1
        · left; simp [hple]
        · rcases hp with hp | ⟨j, rfl⟩
          · omega
          have hj : 1 ≤ j := by
            rcases Nat.eq_zero_or_pos j with rfl | h
            · omega
            · exact h
          right
          exact ⟨j - 1, by rw [if_neg hple, pow2_half hj]⟩
      have hbt : l.length / 2 ≤ n := by omega
      have hbd : l.length - l.length / 2 ≤ n := by omega
      rw [ih (l.take (l.length / 2)) false _ (by rw [List.length_take]; omega) hq ⟨k - 1, htl⟩,
        ih (l.drop (l.length / 2)) true _ (by rw [List.length_drop]; omega) hq ⟨k - 1, hdl⟩]
      exact mergeLoopPA_eq gt rv p hp _ _ _ ⟨k, hk⟩

end ParSerial

/-! ## The bitonic network commutes with monotone maps

Every value-dependent decision of the serial bitonic network is a single
compare-and-swap, which computes the pair `(min, max)` (in one of the two
orders).  Monotone maps commute with `min`/`max`, and all control flow
depends only on lengths, which maps preserve; hence the whole network
commutes with monotone maps.  This is the engine behind the 0-1 principle
used below. -/

section MapCommute

variable {α β : Type} [LinearOrder α] [LinearOrder β]

theorem cswap_map (f : α → β) (hf : Monotone f) (rev : Bool) (x y : α) :
    cswap gtOrd rev (f x) (f y) =
      ((f (cswap gtOrd rev x y).1), f ((cswap gtOrd rev x y).2)) := by
  unfold cswap gtOrd
  rcases lt_trichotomy x y with h | h | h
  · have h1 : ¬ y < x := not_lt_of_lt h
    have h2 : ¬ f y < f x := not_lt_of_le (hf (le_of_lt h))
    cases rev <;> simp [h1, h2]
  · subst h
    cases rev <;> simp
  · have h1 : y < x := h
    by_cases h2 : f y < f x
    · cases rev <;> simp [h1, h2]
    · have h3 : f x ≤ f y := le_of_not_lt h2
      have h4 : f y ≤ f x := hf (le_of_lt h1)
      have h5 : f x = f y := le_antisymm h3 h4
      cases rev <;> simp [h1, h2, h5]

theorem cswapN_map (f : α → β) (hf : Monotone f) (rev : Bool) : ∀ (m : Nat) (xs ys : List α),
    cswapN gtOrd rev m (xs.map f) (ys.map f) =
      ((cswapN gtOrd rev m xs ys).1.map f, (cswapN gtOrd rev m xs ys).2.map f) := by
  intro m
  induction m with
  | zero => intro xs ys; rfl
  | succ m ih =>
    intro xs ys
    cases xs with
    | nil => simp [cswapN]
    | cons x xs =>
      cases ys with
      | nil => simp [cswapN]
      | cons y ys =>
        show cswapN gtOrd rev (m + 1) (f x :: xs.map f) (f y :: ys.map f) = _
        have hs : cswapN gtOrd rev (m + 1) (f x :: xs.map f) (f y :: ys.map f) =
            ((cswap gtOrd rev (f x) (f y)).1 :: (cswapN gtOrd rev m (xs.map f) (ys.map f)).1,
              (cswap gtOrd rev (f x) (f y)).2 :: (cswapN gtOrd rev m (xs.map f) (ys.map f)).2) := by
          simp [cswapN]
        rw [hs, ih, cswap_map f hf]
        simp [cswapN]

theorem bmerge_map (f : α → β) (hf : Monotone f) (rev : Bool) (l : List α) :
    bmerge gtOrd rev (l.map f) = (bmerge gtOrd rev l).map f := by
  show (cswapN gtOrd rev ((l.map f).length / 2)
        ((l.map f).take ((l.map f).length / 2)) ((l.map f).drop ((l.map f).length / 2))).1 ++
      (cswapN gtOrd rev ((l.map f).length / 2)
        ((l.map f).take ((l.map f).length / 2)) ((l.map f).drop ((l.map f).length / 2))).2 =
    ((cswapN gtOrd rev (l.length / 2)
        (l.take (l.length / 2)) (l.drop (l.length / 2))).1 ++
      (cswapN gtOrd rev (l.length / 2)
        (l.take (l.length / 2)) (l.drop (l.length / 2))).2).map f
  rw [List.length_map, ← List.map_take, ← List.map_drop, cswapN_map f hf, List.map_append]

theorem mergeChunksA_map (f : α → β) (hf : Monotone f) (rev : Bool) (size : Nat) :
    ∀ (k : Nat) (l : List α),
    mergeChunksA gtOrd rev size k (l.map f) = (mergeChunksA gtOrd rev size k l).map f := by
  intro k
  induction k with
  | zero => intro l; rfl
  | succ k ih =>
    intro l
    show bmerge gtOrd rev ((l.map f).take size) ++
        mergeChunksA gtOrd rev size k ((l.map f).drop size) =
      (bmerge gtOrd rev (l.take size) ++ mergeChunksA gtOrd rev size k (l.drop size)).map f
    rw [← List.map_take, ← List.map_drop, bmerge_map f hf, ih, List.map_append]

theorem mergeLevel_map (f : α → β) (hf : Monotone f) (rev : Bool) (size : Nat) (l : List α) :
    mergeLevel gtOrd rev size (l.map f) = (mergeLevel gtOrd rev size l).map f := by
  unfold mergeLevel
  rw [List.length_map, mergeChunksA_map f hf]

theorem mergeLoopA_map (f : α → β) (hf : Monotone f) (rev : Bool) : ∀ (fl size : Nat) (l : List α),
    mergeLoopA gtOrd rev fl size (l.map f) = (mergeLoopA gtOrd rev fl size l).map f := by
  intro fl
  induction fl with
  | zero => intro size l; rfl
  | succ fl ih =>
    intro size l
    by_cases h1 : size ≤ 1
    · rw [mergeLoopA_small _ _ _ _ _ h1, mergeLoopA_small _ _ _ _ _ h1]
    · show (if size ≤ 1 then l.map f else
          mergeLoopA gtOrd rev fl (size / 2) (mergeLevel gtOrd rev size (l.map f))) = _
      rw [if_neg h1, mergeLevel_map f hf, ih]
      show _ = (if size ≤ 1 then l else
        mergeLoopA gtOrd rev fl (size / 2) (mergeLevel gtOrd rev size l)).map f
      rw [if_neg h1]

theorem bsortA_map (f : α → β) (hf : Monotone f) : ∀ (fl : Nat) (rev : Bool) (l : List α),
    bsortA gtOrd fl rev (l.map f) = (bsortA gtOrd fl rev l).map f := by
  intro fl
  induction fl with
  | zero => intro rev l; rfl
  | succ fl ih =>
    intro rev l
    by_cases h1 : l.length ≤ 1
    · show (if (l.map f).length ≤ 1 then l.map f else _) = _
      rw [List.length_map, if_pos h1]
      show _ = (if l.length ≤ 1 then l else _).map f
      rw [if_pos h1]
    · show (if (l.map f).length ≤ 1 then l.map f else
          mergeLoop gtOrd rev (l.map f).length
            (bsortA gtOrd fl false ((l.map f).take ((l.map f).length / 2)) ++
              bsortA gtOrd fl true ((l.map f).drop ((l.map f).length / 2)))) = _
      rw [List.length_map, if_neg h1, ← List.map_take, ← List.map_drop, ih, ih, ← List.map_append]
      show mergeLoopA gtOrd rev l.length l.length _ = _
      rw [mergeLoopA_map f hf]
      show _ = (if l.length ≤ 1 then l else _).map f
      rw [if_neg h1]
      rfl

theorem bsortG_map (f : α → β) (hf : Monotone f) (rev : Bool) (l : List α) :
    bsortG gtOrd rev (l.map f) = (bsortG gtOrd rev l).map f := by
  unfold bsortG
  rw [List.length_map, bsortA_map f hf]

end MapCommute

/-! ## 0-1 sequences: shapes and the half-cleaner

A 0-1 sequence is *circularly bitonic* iff it has at most two blocks of
equal values when read cyclically, i.e. it is `0^a 1^b 0^c` or
`1^a 0^b 1^c`.  The compare-and-swap layer of a bitonic merge maps, on
booleans, the two halves to their pointwise `and` (minima) and `or`
(maxima); the half-cleaner lemma states that both results are again
circularly bitonic and one of them is already constant. -/

/-- `0^a 1^b 0^c`. -/
def shapeA (a b c : Nat) : List Bool :=
  List.replicate a false ++ List.replicate b true ++ List.replicate c false

/-- `1^a 0^b 1^c`. -/
def shapeB (a b c : Nat) : List Bool :=
  List.replicate a true ++ List.replicate b false ++ List.replicate c true

/-- Circularly bitonic 0-1 sequences. -/
def binBitonic (l : List Bool) : Prop :=
  (∃ a b c, l = shapeA a b c) ∨ (∃ a b c, l = shapeB a b c)

theorem shapeA_length (a b c : Nat) : (shapeA a b c).length = a + b + c := by
  simp [shapeA]; ring

theorem shapeB_length (a b c : Nat) : (shapeB a b c).length = a + b + c := by
  simp [shapeB]; ring

theorem shapeB_eq_map_not (a b c : Nat) : shapeB a b c = (shapeA a b c).map not := by
  simp [shapeA, shapeB, List.map_replicate]

theorem shapeA_eq_map_not (a b c : Nat) : shapeA a b c = (shapeB a b c).map not := by
  simp [shapeA, shapeB, List.map_replicate]

theorem binBitonic_map_not {l : List Bool} (h : binBitonic l) : binBitonic (l.map not) := by
  rcases h with ⟨a, b, c, rfl⟩ | ⟨a, b, c, rfl⟩
  · exact Or.inr ⟨a, b, c, by rw [shapeB_eq_map_not]⟩
  · exact Or.inl ⟨a, b, c, by rw [shapeA_eq_map_not]⟩

theorem cswap_bool_false (x y : Bool) : cswap gtOrd false x y = (x && y, x || y) := by
  cases x <;> cases y <;> rfl

theorem cswap_bool_true (x y : Bool) : cswap gtOrd true x y = (x || y, x && y) := by
  cases x <;> cases y <;> rfl

theorem cswapN_bool_false : ∀ (m : Nat) (xs ys : List Bool), xs.length = m → ys.length = m →
    cswapN gtOrd false m xs ys = (List.zipWith and xs ys, List.zipWith or xs ys) := by
  intro m
  induction m with
  | zero =>
    intro xs ys hx hy
    rw [List.length_eq_zero.mp hx, List.length_eq_zero.mp hy]
    rfl
  | succ m ih =>
    intro xs ys hx hy
    cases xs with
    | nil => simp at hx
    | cons x xs =>
      cases ys with
      | nil => simp at hy
      | cons y ys =>
        have h1 : cswapN gtOrd false (m + 1) (x :: xs) (y :: ys) =
            ((cswap gtOrd false x y).1 :: (cswapN gtOrd false m xs ys).1,
              (cswap gtOrd false x y).2 :: (cswapN gtOrd false m xs ys).2) := by
          simp [cswapN]
        rw [h1, ih xs ys (by simpa using hx) (by simpa using hy), cswap_bool_false]
        simp

theorem cswapN_bool_true : ∀ (m : Nat) (xs ys : List Bool), xs.length = m → ys.length = m →
    cswapN gtOrd true m xs ys = (List.zipWith or xs ys, List.zipWith and xs ys) := by
  intro m
  induction m with
  | zero =>
    intro xs ys hx hy
    rw [List.length_eq_zero.mp hx, List.length_eq_zero.mp hy]
    rfl
  | succ m ih =>
    intro xs ys hx hy
    cases xs with
    | nil => simp at hx
    | cons x xs =>
      cases ys with
      | nil => simp at hy
      | cons y ys =>
        have h1 : cswapN gtOrd true (m + 1) (x :: xs) (y :: ys) =
            ((cswap gtOrd true x y).1 :: (cswapN gtOrd true m xs ys).1,
              (cswap gtOrd true x y).2 :: (cswapN gtOrd true m xs ys).2) := by
          simp [cswapN]
        rw [h1, ih xs ys (by simpa using hx) (by simpa using hy), cswap_bool_true]
        simp

theorem zipWith_replicate_left {g : Bool → Bool → Bool} :
    ∀ (B : List Bool) (k : Nat) (u : Bool), B.length = k →
    List.zipWith g (List.replicate k u) B = B.map (fun b => g u b) := by
  intro B
  induction B with
  | nil => intro k u h; subst h; rfl
  | cons b B ih =>
    intro k u h
    obtain ⟨k', rfl⟩ : ∃ k', k = k' + 1 := ⟨B.length, by simpa using h.symm⟩
    simp only [List.replicate_succ, List.zipWith_cons_cons, List.map_cons]
    rw [ih k' u (by simpa using h)]

theorem zipWith_replicate_right {g : Bool → Bool → Bool} :
    ∀ (A : List Bool) (k : Nat) (v : Bool), A.length = k →
    List.zipWith g A (List.replicate k v) = A.map (fun a => g a v) := by
  intro A
  induction A with
  | nil => intro k v h; subst h; rfl
  | cons a A ih =>
    intro k v h
    obtain ⟨k', rfl⟩ : ∃ k', k = k' + 1 := ⟨A.length, by simpa using h.symm⟩
    simp only [List.replicate_succ, List.zipWith_cons_cons, List.map_cons]
    rw [ih k' v (by simpa using h)]

theorem zipWith_replicate_prefix {g : Bool → Bool → Bool} :
    ∀ (k : Nat) (u v : Bool) (A B : List Bool),
    List.zipWith g (List.replicate k u ++ A) (List.replicate k v ++ B) =
      List.replicate k (g u v) ++ List.zipWith g A B := by
  intro k
  induction k with
  | zero => intro u v A B; rfl
  | succ k ih =>
    intro u v A B
    simp only [List.replicate_succ, List.cons_append, List.zipWith_cons_cons]
    rw [ih]

theorem bool_map_const (B : List Bool) (c : Bool) :
    B.map (fun _ => c) = List.replicate B.length c := by
  induction B with
  | nil => rfl
  | cons b B ih => simp [ih, List.replicate_succ]

theorem bool_map_id (B : List Bool) : B.map (fun x => x) = B := by
  induction B with
  | nil => rfl
  | cons b B ih => simp [ih]

theorem replicate_false_shapeA (n : Nat) : List.replicate n false = shapeA n 0 0 := by
  simp [shapeA]

theorem replicate_true_shapeB (n : Nat) : List.replicate n true = shapeB n 0 0 := by
  simp [shapeB]

/-- The half-cleaner on a `0^a 1^b 0^c` sequence of length `2n`: pointwise
minima (`and`) and maxima (`or`) of the two halves are circularly bitonic,
and one of the two halves comes out constant. -/
theorem halfCleaner_shapeA (n a b c : Nat) (hl : a + b + c = 2 * n) :
    binBitonic (List.zipWith and ((shapeA a b c).take n) ((shapeA a b c).drop n)) ∧
    binBitonic (List.zipWith or ((shapeA a b c).take n) ((shapeA a b c).drop n)) ∧
    (List.zipWith and ((shapeA a b c).take n) ((shapeA a b c).drop n) =
        List.replicate n false ∨
      List.zipWith or ((shapeA a b c).take n) ((shapeA a b c).drop n) =
        List.replicate n true) := by
  by_cases hna : n ≤ a
  · -- the first half is all zeros
    have hsplit : shapeA a b c = List.replicate n false ++ shapeA (a - n) b c := by
      obtain ⟨d, rfl⟩ : ∃ d, a = n + d := ⟨a - n, by omega⟩
      unfold shapeA
      rw [List.replicate_add, Nat.add_sub_cancel_left]
      simp only [List.append_assoc]
    have hBlen : (shapeA (a - n) b c).length = n := by rw [shapeA_length]; omega
    rw [hsplit, List.take_left' (by simp), List.drop_left' (by simp),
      zipWith_replicate_left (g := and) _ _ _ hBlen,
      zipWith_replicate_left (g := or) _ _ _ hBlen]
    have h1 : (shapeA (a - n) b c).map (fun b => false && b) = List.replicate n false := by
      simp only [Bool.false_and]
      rw [bool_map_const, hBlen]
    have h2 : (shapeA (a - n) b c).map (fun b => false || b) = shapeA (a - n) b c := by
      simp only [Bool.false_or]
      exact bool_map_id _
    rw [h1, h2]
    exact ⟨Or.inl ⟨n, 0, 0, replicate_false_shapeA n⟩, Or.inl ⟨a - n, b, c, rfl⟩, Or.inl rfl⟩
  · by_cases hab : a + b ≤ n
    · -- the second half is all zeros
      have hcn : n ≤ c := by omega
      have hsplit : shapeA a b c = shapeA a b (c - n) ++ List.replicate n false := by
        obtain ⟨d, rfl⟩ : ∃ d, c = d + n := ⟨c - n, by omega⟩
        unfold shapeA
        rw [List.replicate_add, Nat.add_sub_cancel]
        simp only [List.append_assoc]
      have hAlen : (shapeA a b (c - n)).length = n := by rw [shapeA_length]; omega
      rw [hsplit, List.take_left' hAlen, List.drop_left' hAlen,
        zipWith_replicate_right (g := and) _ _ _ hAlen,
        zipWith_replicate_right (g := or) _ _ _ hAlen]
      have h1 : (shapeA a b (c - n)).map (fun x => x && false) = List.replicate n false := by
        simp only [Bool.and_false]
        rw [bool_map_const, hAlen]
      have h2 : (shapeA a b (c - n)).map (fun x => x || false) = shapeA a b (c - n) := by
        simp only [Bool.or_false]
        exact bool_map_id _
      rw [h1, h2]
      exact ⟨Or.inl ⟨n, 0, 0, replicate_false_shapeA n⟩, Or.inl ⟨a, b, c - n, rfl⟩, Or.inl rfl⟩
    · -- the block of ones straddles the middle
      push_neg at hna hab
      obtain ⟨s, rfl⟩ : ∃ s, n = a + s := ⟨n - a, by omega⟩
      obtain ⟨t, rfl⟩ : ∃ t, b = s + t := ⟨b - s, by omega⟩
      have hc : t + c = a + s := by omega
      have hsplit : shapeA a (s + t) c =
          (List.replicate a false ++ List.replicate s true) ++
            (List.replicate t true ++ List.replicate c false) := by
        unfold shapeA
        rw [List.replicate_add]
        simp only [List.append_assoc]
      have hXlen : (List.replicate a false ++ List.replicate s true).length = a + s := by
        simp
      rw [hsplit, List.take_left' hXlen, List.drop_left' hXlen]
      rcases le_total t a with hta | hat
      · -- the leading zeros outlast the wrapped ones
        obtain ⟨e, rfl⟩ : ∃ e, a = t + e := ⟨a - t, by omega⟩
        have hes : e + s = c := by omega
        have hX2 : List.replicate (t + e) false ++ List.replicate s true =
            List.replicate t false ++
              (List.replicate e false ++ List.replicate s true) := by
          rw [List.replicate_add]
          simp only [List.append_assoc]
        have hX2len : (List.replicate e false ++ List.replicate s true).length = c := by
          simp; omega
        rw [hX2, zipWith_replicate_prefix, zipWith_replicate_prefix,
          zipWith_replicate_right (g := and) _ _ _ hX2len,
          zipWith_replicate_right (g := or) _ _ _ hX2len]
        have h1 : (List.replicate e false ++ List.replicate s true).map
            (fun x => x && false) = List.replicate c false := by
          simp only [Bool.and_false]
          rw [bool_map_const, hX2len]
        have h2 : (List.replicate e false ++ List.replicate s true).map
            (fun x => x || false) = List.replicate e false ++ List.replicate s true := by
          simp only [Bool.or_false]
          exact bool_map_id _
        rw [h1, h2]
        have hand : List.replicate t (false && true) ++ List.replicate c false =
            List.replicate (t + e + s) false := by
          show List.replicate t false ++ List.replicate c false = _
          rw [← List.replicate_add, show t + c = t + e + s by omega]
        have hor : List.replicate t (false || true) ++
            (List.replicate e false ++ List.replicate s true) = shapeB t e s := by
          show List.replicate t true ++ _ = _
          simp only [shapeB, List.append_assoc]
        rw [hand, hor]
        exact ⟨Or.inl ⟨t + e + s, 0, 0, replicate_false_shapeA _⟩,
          Or.inr ⟨t, e, s, rfl⟩, Or.inl rfl⟩
      · -- the wrapped ones outlast the leading zeros
        obtain ⟨e, rfl⟩ : ∃ e, t = a + e := ⟨t - a, by omega⟩
        have hec : e + c = s := by omega
        have hY2 : List.replicate (a + e) true ++ List.replicate c false =
            List.replicate a true ++
              (List.replicate e true ++ List.replicate c false) := by
          rw [List.replicate_add]
          simp only [List.append_assoc]
        have hY2len : (List.replicate e true ++ List.replicate c false).length = s := by
          simp; omega
        rw [hY2, zipWith_replicate_prefix, zipWith_replicate_prefix,
          zipWith_replicate_left (g := and) _ _ _ hY2len,
          zipWith_replicate_left (g := or) _ _ _ hY2len]
        have h1 : (List.replicate e true ++ List.replicate c false).map
            (fun b => true && b) = List.replicate e true ++ List.replicate c false := by
          simp only [Bool.true_and]
          exact bool_map_id _
        have h2 : (List.replicate e true ++ List.replicate c false).map
            (fun b => true || b) = List.replicate s true := by
          simp only [Bool.true_or]
          rw [bool_map_const, hY2len]
        rw [h1, h2]
        have hand : List.replicate a (false && true) ++
            (List.replicate e true ++ List.replicate c false) = shapeA a e c := by
          show List.replicate a false ++ _ = _
          simp only [shapeA, List.append_assoc]
        have hor : List.replicate a (false || true) ++ List.replicate s true =
            List.replicate (a + s) true := by
          show List.replicate a true ++ _ = _
          rw [← List.replicate_add]
        rw [hand, hor]
        exact ⟨Or.inl ⟨a, e, c, rfl⟩,
          Or.inr ⟨a + s, 0, 0, replicate_true_shapeB _⟩, Or.inr rfl⟩

theorem zipWith_not_and : ∀ (A B : List Bool),
    List.zipWith and (A.map not) (B.map not) = (List.zipWith or A B).map not := by
  intro A
  induction A with
  | nil => intro B; rfl
  | cons a A ih =>
    intro B
    cases B with
    | nil => rfl
    | cons b B => simp [ih, Bool.not_or]

theorem zipWith_not_or : ∀ (A B : List Bool),
    List.zipWith or (A.map not) (B.map not) = (List.zipWith and A B).map not := by
  intro A
  induction A with
  | nil => intro B; rfl
  | cons a A ih =>
    intro B
    cases B with
    | nil => rfl
    | cons b B => simp [ih, Bool.not_and]

/-- Half-cleaner for every circularly bitonic 0-1 sequence. -/
theorem halfCleaner (n : Nat) (l : List Bool) (hl : l.length = 2 * n) (hb : binBitonic l) :
    binBitonic (List.zipWith and (l.take n) (l.drop n)) ∧
    binBitonic (List.zipWith or (l.take n) (l.drop n)) ∧
    (List.zipWith and (l.take n) (l.drop n) = List.replicate n false ∨
      List.zipWith or (l.take n) (l.drop n) = List.replicate n true) := by
  rcases hb with ⟨a, b, c, rfl⟩ | ⟨a, b, c, rfl⟩
  · exact halfCleaner_shapeA n a b c (by rw [← shapeA_length a b c]; exact hl)
  · rw [shapeB_eq_map_not]
    rw [shapeB_eq_map_not] at hl
    have hlen : (shapeA a b c).length = 2 * n := by simpa using hl
    have hAnd : List.zipWith and (((shapeA a b c).map not).take n)
        (((shapeA a b c).map not).drop n) =
        (List.zipWith or ((shapeA a b c).take n) ((shapeA a b c).drop n)).map not := by
      rw [← List.map_take, ← List.map_drop, zipWith_not_and]
    have hOr : List.zipWith or (((shapeA a b c).map not).take n)
        (((shapeA a b c).map not).drop n) =
        (List.zipWith and ((shapeA a b c).take n) ((shapeA a b c).drop n)).map not := by
      rw [← List.map_take, ← List.map_drop, zipWith_not_or]
    obtain ⟨hA1, hA2, hA3⟩ := halfCleaner_shapeA n a b c
      (by rw [← shapeA_length a b c]; exact hlen)
    rw [hAnd, hOr]
    refine ⟨binBitonic_map_not hA2, binBitonic_map_not hA1, ?_⟩
    rcases hA3 with h | h
    · right
      rw [h]
      simp [List.map_replicate]
    · left
      rw [h]
      simp [List.map_replicate]

/-! ## The merge cascade sorts circularly bitonic 0-1 sequences -/

theorem bmerge_bool_false (l : List Bool) (n : Nat) (hl : l.length = 2 * n) :
    bmerge gtOrd false l =
      List.zipWith and (l.take n) (l.drop n) ++ List.zipWith or (l.take n) (l.drop n) := by
  have hn : l.length / 2 = n := by omega
  show (cswapN gtOrd false (l.length / 2) (l.take (l.length / 2)) (l.drop (l.length / 2))).1 ++
    (cswapN gtOrd false (l.length / 2) (l.take (l.length / 2)) (l.drop (l.length / 2))).2 = _
  rw [hn, cswapN_bool_false n (l.take n) (l.drop n)
    (by rw [List.length_take]; omega) (by rw [List.length_drop]; omega)]

theorem bmerge_bool_true (l : List Bool) (n : Nat) (hl : l.length = 2 * n) :
    bmerge gtOrd true l =
      List.zipWith or (l.take n) (l.drop n) ++ List.zipWith and (l.take n) (l.drop n) := by
  have hn : l.length / 2 = n := by omega
  show (cswapN gtOrd true (l.length / 2) (l.take (l.length / 2)) (l.drop (l.length / 2))).1 ++
    (cswapN gtOrd true (l.length / 2) (l.take (l.length / 2)) (l.drop (l.length / 2))).2 = _
  rw [hn, cswapN_bool_true n (l.take n) (l.drop n)
    (by rw [List.length_take]; omega) (by rw [List.length_drop]; omega)]

section Distrib

variable {α : Type} (gt : α → α → Bool) (rev : Bool)

theorem mergeChunksA_append (size : Nat) : ∀ (k1 k2 : Nat) (l1 l2 : List α),
    k1 * size = l1.length →
    mergeChunksA gt rev size (k1 + k2) (l1 ++ l2) =
      mergeChunksA gt rev size k1 l1 ++ mergeChunksA gt rev size k2 l2 := by
  intro k1
  induction k1 with
  | zero =>
    intro k2 l1 l2 h
    have : l1 = [] := List.length_eq_zero.mp (by omega)
    subst this
    simp [mergeChunksA]
  | succ k1 ih =>
    intro k2 l1 l2 h
    have hs : size ≤ l1.length := by
      have : 1 * size ≤ (k1 + 1) * size := Nat.mul_le_mul_right _ (by omega)
      omega
    have hcount : k1 + 1 + k2 = (k1 + k2) + 1 := by omega
    rw [hcount]
    show bmerge gt rev ((l1 ++ l2).take size) ++
        mergeChunksA gt rev size (k1 + k2) ((l1 ++ l2).drop size) =
      (bmerge gt rev (l1.take size) ++ mergeChunksA gt rev size k1 (l1.drop size)) ++
        mergeChunksA gt rev size k2 l2
    rw [List.take_append_of_le_length hs, List.drop_append_of_le_length hs,
      ih k2 (l1.drop size) l2 (by
        rw [List.length_drop]
        have hh : (k1 + 1) * size = k1 * size + size := by ring
        omega), List.append_assoc]

theorem mergeLoopA_append : ∀ (f j : Nat) (u v : List α),
    2 ^ j ∣ u.length → 2 ^ j ∣ v.length →
    mergeLoopA gt rev f (2 ^ j) (u ++ v) =
      mergeLoopA gt rev f (2 ^ j) u ++ mergeLoopA gt rev f (2 ^ j) v := by
  intro f
  induction f with
  | zero => intro j u v _ _; rfl
  | succ f ih =>
    intro j u v hu hv
    by_cases h1 : (2 : Nat) ^ j ≤ 1
    · rw [mergeLoopA_small gt rev _ _ _ h1, mergeLoopA_small gt rev _ _ _ h1,
        mergeLoopA_small gt rev _ _ _ h1]
    · have hj : 1 ≤ j := by
        rcases Nat.eq_zero_or_pos j with rfl | h
        · simp at h1
        · exact h
      obtain ⟨q, hq⟩ := id hu
      have hlevel : mergeLevel gt rev (2 ^ j) (u ++ v) =
          mergeLevel gt rev (2 ^ j) u ++ mergeLevel gt rev (2 ^ j) v := by
        unfold mergeLevel
        have hqu : u.length / 2 ^ j = q := by
          rw [hq]
          exact Nat.mul_div_cancel_left _ (by positivity)
        have hcount : (u ++ v).length / 2 ^ j = q + v.length / 2 ^ j := by
          rw [List.length_append, hq, Nat.mul_add_div (by positivity)]
        rw [hcount, mergeChunksA_append gt rev _ q _ u v (by rw [hq]; ring), hqu]
      show (if (2:Nat) ^ j ≤ 1 then u ++ v else
          mergeLoopA gt rev f (2 ^ j / 2) (mergeLevel gt rev (2 ^ j) (u ++ v))) = _
      rw [if_neg h1, hlevel, pow2_half hj]
      have h2 : mergeLoopA gt rev f (2 ^ (j - 1))
          (mergeLevel gt rev (2 ^ j) u ++ mergeLevel gt rev (2 ^ j) v) =
          mergeLoopA gt rev f (2 ^ (j - 1)) (mergeLevel gt rev (2 ^ j) u) ++
            mergeLoopA gt rev f (2 ^ (j - 1)) (mergeLevel gt rev (2 ^ j) v) := by
        refine ih (j - 1) _ _ ?_ ?_
        · rw [(mergeLevel_perm gt rev _ _).length_eq]
          exact dvd_trans (pow_dvd_pow 2 (by omega)) hu
        · rw [(mergeLevel_perm gt rev _ _).length_eq]
          exact dvd_trans (pow_dvd_pow 2 (by omega)) hv
      rw [h2]
      have hru : mergeLoopA gt rev f (2 ^ (j - 1)) (mergeLevel gt rev (2 ^ j) u) =
          (if (2:Nat) ^ j ≤ 1 then u else
            mergeLoopA gt rev f (2 ^ j / 2) (mergeLevel gt rev (2 ^ j) u)) := by
        rw [if_neg h1, pow2_half hj]
      have hrv : mergeLoopA gt rev f (2 ^ (j - 1)) (mergeLevel gt rev (2 ^ j) v) =
          (if (2:Nat) ^ j ≤ 1 then v else
            mergeLoopA gt rev f (2 ^ j / 2) (mergeLevel gt rev (2 ^ j) v)) := by
        rw [if_neg h1, pow2_half hj]
      rw [hru, hrv]
      rfl

end Distrib

theorem sorted_bool_canon : ∀ (l : List Bool), List.Sorted (· ≤ ·) l →
    ∃ a b, l = List.replicate a false ++ List.replicate b true := by
  intro l
  induction l with
  | nil => intro _; exact ⟨0, 0, rfl⟩
  | cons x t ih =>
    intro hs
    have hst : List.Sorted (· ≤ ·) t := hs.of_cons
    cases x with
    | false =>
      obtain ⟨a, b, rfl⟩ := ih hst
      exact ⟨a + 1, b, by rw [List.replicate_succ]; rfl⟩
    | true =>
      have hall : ∀ y ∈ t, y = true := by
        intro y hy
        have := List.rel_of_sorted_cons hs y hy
        exact Bool.eq_true_of_true_le this
      exact ⟨0, t.length + 1, by
        rw [List.eq_replicate_of_mem hall]
        simp [List.replicate_succ]⟩

theorem sorted_desc_bool_canon : ∀ (l : List Bool), List.Sorted (· ≥ ·) l →
    ∃ a b, l = List.replicate a true ++ List.replicate b false := by
  intro l
  induction l with
  | nil => intro _; exact ⟨0, 0, rfl⟩
  | cons x t ih =>
    intro hs
    have hst : List.Sorted (· ≥ ·) t := hs.of_cons
    cases x with
    | true =>
      obtain ⟨a, b, rfl⟩ := ih hst
      exact ⟨a + 1, b, by rw [List.replicate_succ]; rfl⟩
    | false =>
      have hall : ∀ y ∈ t, y = false := by
        intro y hy
        have := List.rel_of_sorted_cons hs y hy
        exact Bool.eq_false_iff.mpr (by
          intro hcon
          subst hcon
          exact absurd this (by simp))
      exact ⟨0, t.length + 1, by
        rw [List.eq_replicate_of_mem hall]
        simp [List.replicate_succ]⟩

/-! ## Descending direction by negation duality -/

theorem map_not_not (l : List Bool) : (l.map not).map not = l := by
  rw [List.map_map]
  have : (not ∘ not) = id := by
    funext b
    simp
  rw [this, List.map_id]

theorem cswap_not (x y : Bool) :
    cswap gtOrd true x y =
      (!(cswap gtOrd false (!x) (!y)).1, !(cswap gtOrd false (!x) (!y)).2) := by
  cases x <;> cases y <;> rfl

theorem cswapN_not : ∀ (m : Nat) (xs ys : List Bool),
    cswapN gtOrd true m xs ys =
      ((cswapN gtOrd false m (xs.map not) (ys.map not)).1.map not,
        (cswapN gtOrd false m (xs.map not) (ys.map not)).2.map not) := by
  intro m
  induction m with
  | zero =>
    intro xs ys
    show (xs, ys) = ((xs.map not).map not, (ys.map not).map not)
    rw [map_not_not, map_not_not]
  | succ m ih =>
    intro xs ys
    cases xs with
    | nil =>
      show ([], ys) = (([] : List Bool), (ys.map not).map not)
      rw [map_not_not]
    | cons x xs =>
      cases ys with
      | nil =>
        show (x :: xs, []) = (((x :: xs).map not).map not, ([] : List Bool))
        rw [map_not_not]
      | cons y ys =>
        have h1 : cswapN gtOrd true (m + 1) (x :: xs) (y :: ys) =
            ((cswap gtOrd true x y).1 :: (cswapN gtOrd true m xs ys).1,
              (cswap gtOrd true x y).2 :: (cswapN gtOrd true m xs ys).2) := by
          simp [cswapN]
        have h2 : cswapN gtOrd false (m + 1) ((!x) :: xs.map not) ((!y) :: ys.map not) =
            ((cswap gtOrd false (!x) (!y)).1 ::
                (cswapN gtOrd false m (xs.map not) (ys.map not)).1,
              (cswap gtOrd false (!x) (!y)).2 ::
                (cswapN gtOrd false m (xs.map not) (ys.map not)).2) := by
          simp [cswapN]
        show cswapN gtOrd true (m + 1) (x :: xs) (y :: ys) = _
        rw [h1, ih]
        show _ =
          ((cswapN gtOrd false (m + 1) ((!x) :: xs.map not) ((!y) :: ys.map not)).1.map not,
            (cswapN gtOrd false (m + 1) ((!x) :: xs.map not) ((!y) :: ys.map not)).2.map not)
        rw [h2, cswap_not]
        simp

theorem bmerge_not (l : List Bool) :
    bmerge gtOrd true l = (bmerge gtOrd false (l.map not)).map not := by
  show (cswapN gtOrd true (l.length / 2) (l.take (l.length / 2)) (l.drop (l.length / 2))).1 ++
      (cswapN gtOrd true (l.length / 2) (l.take (l.length / 2)) (l.drop (l.length / 2))).2 =
    ((cswapN gtOrd false ((l.map not).length / 2) ((l.map not).take ((l.map not).length / 2))
        ((l.map not).drop ((l.map not).length / 2))).1 ++
      (cswapN gtOrd false ((l.map not).length / 2) ((l.map not).take ((l.map not).length / 2))
        ((l.map not).drop ((l.map not).length / 2))).2).map not
  rw [List.length_map, ← List.map_take, ← List.map_drop, cswapN_not, List.map_append]

theorem mergeChunksA_not (size : Nat) : ∀ (k : Nat) (l : List Bool),
    mergeChunksA gtOrd true size k l =
      (mergeChunksA gtOrd false size k (l.map not)).map not := by
  intro k
  induction k with
  | zero =>
    intro l
    show l = (l.map not).map not
    rw [map_not_not]
  | succ k ih =>
    intro l
    show bmerge gtOrd true (l.take size) ++ mergeChunksA gtOrd true size k (l.drop size) =
      (bmerge gtOrd false ((l.map not).take size) ++
        mergeChunksA gtOrd false size k ((l.map not).drop size)).map not
    rw [← List.map_take, ← List.map_drop, List.map_append, bmerge_not, ih]

theorem mergeLevel_not (size : Nat) (l : List Bool) :
    mergeLevel gtOrd true size l = (mergeLevel gtOrd false size (l.map not)).map not := by
  unfold mergeLevel
  rw [List.length_map, mergeChunksA_not]

theorem mergeLoopA_not : ∀ (f size : Nat) (l : List Bool),
    mergeLoopA gtOrd true f size l = (mergeLoopA gtOrd false f size (l.map not)).map not := by
  intro f
  induction f with
  | zero =>
    intro size l
    show l = (l.map not).map not
    rw [map_not_not]
  | succ f ih =>
    intro size l
    by_cases h1 : size ≤ 1
    · rw [mergeLoopA_small _ _ _ _ _ h1, mergeLoopA_small _ _ _ _ _ h1, map_not_not]
    · show (if size ≤ 1 then l else
          mergeLoopA gtOrd true f (size / 2) (mergeLevel gtOrd true size l)) = _
      rw [if_neg h1, mergeLevel_not, ih, map_not_not]
      show _ = (if size ≤ 1 then l.map not else
        mergeLoopA gtOrd false f (size / 2) (mergeLevel gtOrd false size (l.map not))).map not
      rw [if_neg h1]

theorem mergeLoop_step {α : Type} (gt : α → α → Bool) (rev : Bool) (size : Nat) (l : List α)
    (h : ¬ size ≤ 1) :
    mergeLoop gt rev size l = mergeLoop gt rev (size / 2) (mergeLevel gt rev size l) := by
  obtain ⟨f, rfl⟩ : ∃ f, size = f + 1 := ⟨size - 1, by omega⟩
  show (if f + 1 ≤ 1 then l else
    mergeLoopA gt rev f ((f + 1) / 2) (mergeLevel gt rev (f + 1) l)) = _
  rw [if_neg h]
  exact mergeLoopA_fuel gt rev f ((f + 1) / 2) ((f + 1) / 2) _ (by omega) le_rfl

theorem mergeLevel_full {α : Type} (gt : α → α → Bool) (rev : Bool) (l : List α)
    (h : 0 < l.length) : mergeLevel gt rev l.length l = bmerge gt rev l := by
  unfold mergeLevel
  rw [Nat.div_self h]
  show bmerge gt rev (l.take l.length) ++ mergeChunksA gt rev l.length 0 (l.drop l.length) = _
  rw [List.take_length, List.drop_length]
  show bmerge gt rev l ++ [] = bmerge gt rev l
  rw [List.append_nil]

theorem mergeLoop_bool_sorted : ∀ (k : Nat) (l : List Bool), l.length = 2 ^ k → binBitonic l →
    List.Sorted (· ≤ ·) (mergeLoop gtOrd false (2 ^ k) l) := by
  intro k
  induction k with
  | zero =>
    intro l hl _
    rw [show (2:Nat) ^ 0 = 1 from rfl] at hl ⊢
    show List.Sorted (· ≤ ·) (mergeLoopA gtOrd false 1 1 l)
    rw [mergeLoopA_small _ _ _ _ _ le_rfl]
    obtain ⟨x, rfl⟩ := List.length_eq_one.mp hl
    exact List.sorted_singleton x
  | succ k ih =>
    intro l hl hb
    have h2n : (2:Nat) ^ (k + 1) = 2 * 2 ^ k := by ring
    have hpos : (0:Nat) < 2 ^ k := pow_pos (by norm_num) k
    have hnot : ¬ (2:Nat) ^ (k + 1) ≤ 1 := by omega
    rw [mergeLoop_step gtOrd false _ l hnot]
    have hhalf : (2:Nat) ^ (k + 1) / 2 = 2 ^ k := by omega
    rw [hhalf]
    have hfull : mergeLevel gtOrd false (2 ^ (k + 1)) l = bmerge gtOrd false l := by
      rw [← hl]
      exact mergeLevel_full gtOrd false l (by omega)
    rw [hfull, bmerge_bool_false l (2 ^ k) (by omega)]
    obtain ⟨hbu, hbv, hclean⟩ := halfCleaner (2 ^ k) l (by omega) hb
    have hul : (List.zipWith and (l.take (2 ^ k)) (l.drop (2 ^ k))).length = 2 ^ k := by
      rw [List.length_zipWith, List.length_take, List.length_drop]
      omega
    have hvl : (List.zipWith or (l.take (2 ^ k)) (l.drop (2 ^ k))).length = 2 ^ k := by
      rw [List.length_zipWith, List.length_take, List.length_drop]
      omega
    have happ : mergeLoop gtOrd false (2 ^ k)
        (List.zipWith and (l.take (2 ^ k)) (l.drop (2 ^ k)) ++
          List.zipWith or (l.take (2 ^ k)) (l.drop (2 ^ k))) =
        mergeLoop gtOrd false (2 ^ k) (List.zipWith and (l.take (2 ^ k)) (l.drop (2 ^ k))) ++
          mergeLoop gtOrd false (2 ^ k) (List.zipWith or (l.take (2 ^ k)) (l.drop (2 ^ k))) :=
      mergeLoopA_append gtOrd false _ k _ _ (by rw [hul]) (by rw [hvl])
    rw [happ]
    have hsu := ih _ hul hbu
    have hsv := ih _ hvl hbv
    rw [List.Sorted, List.pairwise_append]
    refine ⟨hsu, hsv, ?_⟩
    intro x hx y hy
    rcases hclean with hcl | hcl
    · have hxu := (mergeLoop_perm gtOrd false _ _).mem_iff.mp hx
      rw [hcl] at hxu
      rw [List.eq_of_mem_replicate hxu]
      exact Bool.false_le y
    · have hyv := (mergeLoop_perm gtOrd false _ _).mem_iff.mp hy
      rw [hcl] at hyv
      rw [List.eq_of_mem_replicate hyv]
      exact Bool.le_true x

theorem bool_le_not {a b : Bool} (h : a ≤ b) : (!b) ≤ (!a) := by
  cases a <;> cases b <;> simp_all

theorem mergeLoop_bool_sorted_desc (k : Nat) (l : List Bool) (hl : l.length = 2 ^ k)
    (hb : binBitonic l) : List.Sorted (· ≥ ·) (mergeLoop gtOrd true (2 ^ k) l) := by
  show List.Sorted (· ≥ ·) (mergeLoopA gtOrd true (2 ^ k) (2 ^ k) l)
  rw [mergeLoopA_not]
  have hs := mergeLoop_bool_sorted k (l.map not) (by simpa using hl) (binBitonic_map_not hb)
  rw [List.Sorted, List.pairwise_map]
  exact hs.imp (fun hab => bool_le_not hab)

theorem bsortG_bool_sorted : ∀ (k : Nat) (l : List Bool), l.length = 2 ^ k →
    List.Sorted (· ≤ ·) (bsortG gtOrd false l) ∧
      List.Sorted (· ≥ ·) (bsortG gtOrd true l) := by
  intro k
  induction k with
  | zero =>
    intro l hl
    rw [show (2:Nat) ^ 0 = 1 from rfl] at hl
    obtain ⟨x, rfl⟩ := List.length_eq_one.mp hl
    constructor
    · rw [bsortG_eq, if_pos (by simp)]
      exact List.sorted_singleton x
    · rw [bsortG_eq, if_pos (by simp)]
      exact List.sorted_singleton x
  | succ k ih =>
    intro l hl
    have hpos : (0:Nat) < 2 ^ k := pow_pos (by norm_num) k
    have h2n : (2:Nat) ^ (k + 1) = 2 * 2 ^ k := by ring
    have h1 : ¬ l.length ≤ 1 := by omega
    have hhalf : l.length / 2 = 2 ^ k := by omega
    have htl : (l.take (l.length / 2)).length = 2 ^ k := by
      rw [List.length_take]
      omega
    have hdl : (l.drop (l.length / 2)).length = 2 ^ k := by
      rw [List.length_drop]
      omega
    obtain ⟨hst, _⟩ := ih (l.take (l.length / 2)) htl
    obtain ⟨_, hsd⟩ := ih (l.drop (l.length / 2)) hdl
    obtain ⟨a, b, hab⟩ := sorted_bool_canon _ hst
    obtain ⟨c, d, hcd⟩ := sorted_desc_bool_canon _ hsd
    have hH : bsortG gtOrd false (l.take (l.length / 2)) ++
        bsortG gtOrd true (l.drop (l.length / 2)) = shapeA a (b + c) d := by
      rw [hab, hcd]
      simp only [shapeA, List.replicate_add, List.append_assoc]
    have hHlen : (shapeA a (b + c) d).length = 2 ^ (k + 1) := by
      rw [← hH, List.length_append, bsortG_length, bsortG_length, htl, hdl]
      omega
    have hHb : binBitonic (shapeA a (b + c) d) := Or.inl ⟨a, b + c, d, rfl⟩
    constructor
    · rw [bsortG_eq, if_neg h1, hH, hl]
      exact mergeLoop_bool_sorted (k + 1) _ hHlen hHb
    · rw [bsortG_eq, if_neg h1, hH, hl]
      exact mergeLoop_bool_sorted_desc (k + 1) _ hHlen hHb

/-- The 0-1 principle applied to the serial bitonic network: on power-of-two
lengths over any linear order the network sorts. -/
theorem bsortG_sorted_pow2 {α : Type} [LinearOrder α] (k : Nat) (l : List α)
    (hl : l.length = 2 ^ k) : List.Sorted (· ≤ ·) (bsortG gtOrd false l) := by
  by_contra hcon
  rw [List.Sorted, List.pairwise_iff_getElem] at hcon
  push_neg at hcon
  obtain ⟨i, j, hi, hj, hij, hle⟩ := hcon
  have hmono : Monotone (fun z => decide ((bsortG gtOrd false l)[i] ≤ z)) := by
    intro a b hab
    by_cases hca : (bsortG gtOrd false l)[i] ≤ a
    · have hcb : decide ((bsortG gtOrd false l)[i] ≤ b) = true := by
        simp [le_trans hca hab]
      simp only [hcb]
      exact Bool.le_true _
    · have hca' : decide ((bsortG gtOrd false l)[i] ≤ a) = false := by
        simp [hca]
      simp only [hca']
      exact Bool.false_le _
  have hsorted : List.Sorted (· ≤ ·)
      ((bsortG gtOrd false l).map (fun z => decide ((bsortG gtOrd false l)[i] ≤ z))) := by
    rw [← bsortG_map _ hmono]
    exact (bsortG_bool_sorted k (l.map _) (by rw [List.length_map, hl])).1
  rw [List.Sorted, List.pairwise_iff_getElem] at hsorted
  have hmi : i < ((bsortG gtOrd false l).map
      (fun z => decide ((bsortG gtOrd false l)[i] ≤ z))).length := by
    rw [List.length_map]; exact hi
  have hmj : j < ((bsortG gtOrd false l).map
      (fun z => decide ((bsortG gtOrd false l)[i] ≤ z))).length := by
    rw [List.length_map]; exact hj
  have hcmp := hsorted i j hmi hmj hij
  rw [List.getElem_map, List.getElem_map] at hcmp
  have hfi : decide ((bsortG gtOrd false l)[i] ≤ (bsortG gtOrd false l)[i]) = true := by
    simp
  have hfj : decide ((bsortG gtOrd false l)[i] ≤ (bsortG gtOrd false l)[j]) = false := by
    simpa using hle
  rw [hfi, hfj] at hcmp
  exact absurd hcmp (by decide)

/-- On power-of-two lengths the serial bitonic network computes the
canonical sorted permutation. -/
theorem bsortG_canon {α : Type} [LinearOrder α] (k : Nat) (l : List α)
    (hl : l.length = 2 ^ k) :
    bsortG gtOrd false l = List.insertionSort (· ≤ ·) l :=
  List.eq_of_perm_of_sorted
    ((bsortG_perm _ _ l).trans (List.perm_insertionSort _ l).symm)
    (bsortG_sorted_pow2 k l hl) (List.sorted_insertionSort _ l)

/-! ## From the padded sort back through truncation -/

/-- If `S` is a sorted permutation of `l ++ M^m` where `M` bounds `l`, then
truncating `S` to `l.length` yields exactly the canonical sorted
permutation of `l`: the padding copies sort to the tail and are cut off. -/
theorem take_canon {α : Type} [LinearOrder α] (l : List α) (M : α) (m : Nat) (S : List α)
    (hS : List.Sorted (· ≤ ·) S) (hperm : List.Perm S (l ++ List.replicate m M))
    (hM : ∀ y ∈ l, y ≤ M) :
    S.take l.length = List.insertionSort (· ≤ ·) l := by
  have hsorted2 : List.Sorted (· ≤ ·)
      (List.insertionSort (· ≤ ·) l ++ List.replicate m M) := by
    rw [List.Sorted, List.pairwise_append]
    refine ⟨List.sorted_insertionSort _ l, ?_, ?_⟩
    · exact List.pairwise_replicate.mpr (Or.inr le_rfl)
    · intro x hx y hy
      have hxl : x ∈ l := (List.perm_insertionSort _ l).mem_iff.mp hx
      rw [List.eq_of_mem_replicate hy]
      exact hM x hxl
  have hperm2 : List.Perm S (List.insertionSort (· ≤ ·) l ++ List.replicate m M) :=
    hperm.trans (((List.perm_insertionSort (· ≤ ·) l).symm).append_right _)
  have heq : S = List.insertionSort (· ≤ ·) l ++ List.replicate m M :=
    List.eq_of_perm_of_sorted hperm2 hS hsorted2
  rw [heq, List.take_left' (List.length_insertionSort _ _)]

theorem foldMax_bounds {α : Type} [LinearOrder α] (pick : α → α → Bool)
    (hpick : ∀ a b : α, if pick a b then b ≤ a else a ≤ b) (x : α) (xs : List α) :
    ∀ y ∈ x :: xs, y ≤ foldMax pick x (x :: xs) := by
  intro y hy
  rw [foldMax_eq_foldl_max pick hpick]
  rcases List.mem_cons.mp hy with rfl | hy'
  · exact mem_le_foldl_max _ _ _ (List.mem_cons_self _ _)
  · exact mem_le_foldl_max _ _ _ (List.mem_cons_of_mem _ hy')

/-- The serial bitonic engine computes the canonical sorted permutation. -/
theorem bitonicSerialSort_canon {α : Type} [LinearOrder α] (l : List α) :
    bitonicSerialSort l = List.insertionSort (· ≤ ·) l := by
  cases l with
  | nil => rfl
  | cons x xs =>
    show (bsortG gtOrd false (padPow2 geOrd x xs)).take (x :: xs).length = _
    obtain ⟨k, hk⟩ := nextPow2_pow2 (x :: xs).length
    have hplen : (padPow2 geOrd x xs).length = 2 ^ k := by
      rw [padPow2_length, hk]
    refine take_canon (x :: xs) (foldMax geOrd x (x :: xs))
      (nextPow2 (x :: xs).length - (x :: xs).length) _
      (bsortG_sorted_pow2 k _ hplen) ?_ ?_
    · have h1 := bsortG_perm gtOrd false (padPow2 geOrd x xs)
      nth_rewrite 2 [padPow2_eq geOrd x xs] at h1
      exact h1
    · exact foldMax_bounds geOrd hpick_ge x xs

/-- `coercePar` of a request `≤ 128` is `nextPow2` of it, a power of two. -/
theorem coercePar_le_128 (p : Nat) (hp : p ≤ 128) : coercePar p = nextPow2 p := by
  unfold coercePar
  have h : nextPow2 p ≤ 128 := by
    have := nextPow2_le_pow2 p 7 (by norm_num; omega)
    simpa using this
  rw [if_pos (by omega)]

/-- The parallel bitonic engine with a requested parallelism of at most 128
computes the canonical sorted permutation. -/
theorem bitonicParallelSort_canon {α : Type} [LinearOrder α] (l : List α) (p : Nat)
    (hp : p ≤ 128) :
    bitonicParallelSort l p = List.insertionSort (· ≤ ·) l := by
  cases l with
  | nil => rfl
  | cons x xs =>
    show (bsortPG gtOrd false (coercePar p) (padPow2 gtOrd x xs)).take (x :: xs).length = _
    obtain ⟨k, hk⟩ := nextPow2_pow2 (x :: xs).length
    have hplen : (padPow2 gtOrd x xs).length = 2 ^ k := by
      rw [padPow2_length, hk]
    obtain ⟨j, hj⟩ := nextPow2_pow2 p
    have hco : coercePar p = 2 ^ j := by rw [coercePar_le_128 p hp, hj]
    have heq : bsortPG gtOrd false (coercePar p) (padPow2 gtOrd x xs) =
        bsortG gtOrd false (padPow2 gtOrd x xs) :=
      bsortPG_eq_bsortG gtOrd (padPow2 gtOrd x xs).length _ false _ le_rfl
        (Or.inr ⟨j, hco⟩) ⟨k, hplen⟩
    rw [heq]
    refine take_canon (x :: xs) (foldMax gtOrd x (x :: xs))
      (nextPow2 (x :: xs).length - (x :: xs).length) _
      (bsortG_sorted_pow2 k _ hplen) ?_ ?_
    · have h1 := bsortG_perm gtOrd false (padPow2 gtOrd x xs)
      nth_rewrite 2 [padPow2_eq gtOrd x xs] at h1
      exact h1
    · exact foldMax_bounds gtOrd hpick_gt x xs

/-! ## Correctness of `parallel_sort` for power-of-two worker counts -/

theorem leOrd_eq_true {α : Type} [LinearOrder α] {x y : α} (h : x ≤ y) : leOrd x y = true := by
  simp [leOrd, h]

theorem merge2A_sorted {α : Type} [LinearOrder α] : ∀ (f : Nat) (xs ys : List α),
    xs.length + ys.length ≤ f → List.Sorted (· ≤ ·) xs → List.Sorted (· ≤ ·) ys →
    List.Sorted (· ≤ ·) (merge2A leOrd f xs ys) := by
  intro f
  induction f with
  | zero =>
    intro xs ys h hx hy
    have hx0 : xs = [] := List.length_eq_zero.mp (by omega)
    have hy0 : ys = [] := List.length_eq_zero.mp (by omega)
    subst hx0; subst hy0
    exact List.sorted_nil
  | succ f ih =>
    intro xs ys h hx hy
    cases xs with
    | nil => exact hy
    | cons x xs =>
      cases ys with
      | nil => exact hx
      | cons y ys =>
        show List.Sorted (· ≤ ·) (if leOrd x y then x :: merge2A leOrd f xs (y :: ys)
          else y :: merge2A leOrd f (x :: xs) ys)
        by_cases hxy : x ≤ y
        · rw [if_pos (leOrd_eq_true hxy)]
          rw [List.sorted_cons]
          refine ⟨?_, ih xs (y :: ys) (by simp at h ⊢; omega) hx.of_cons hy⟩
          intro b hb
          have hb' : b ∈ xs ++ (y :: ys) := (merge2A_perm leOrd f xs (y :: ys)).mem_iff.mp hb
          rcases List.mem_append.mp hb' with h1 | h1
          · exact List.rel_of_sorted_cons hx b h1
          · rcases List.mem_cons.mp h1 with rfl | h2
            · exact hxy
            · exact le_trans hxy (List.rel_of_sorted_cons hy b h2)
        · have hyx : y ≤ x := le_of_not_le hxy
          rw [if_neg (by simp [leOrd, hxy])]
          rw [List.sorted_cons]
          refine ⟨?_, ih (x :: xs) ys (by simp at h ⊢; omega) hx hy.of_cons⟩
          intro b hb
          have hb' : b ∈ (x :: xs) ++ ys := (merge2A_perm leOrd f (x :: xs) ys).mem_iff.mp hb
          rcases List.mem_append.mp hb' with h1 | h1
          · rcases List.mem_cons.mp h1 with rfl | h2
            · exact hyx
            · exact le_trans hyx (List.rel_of_sorted_cons hx b h2)
          · exact List.rel_of_sorted_cons hy b h1

/-- `l` splits into `q` consecutive sorted runs of width `s`. -/
inductive Runs {α : Type} [LinearOrder α] (s : Nat) : Nat → List α → Prop
  | nil : Runs s 0 []
  | cons (r t : List α) (q : Nat) : r.length = s → List.Sorted (· ≤ ·) r →
      Runs s q t → Runs s (q + 1) (r ++ t)

theorem Runs_length {α : Type} [LinearOrder α] {s : Nat} :
    ∀ {q : Nat} {l : List α}, Runs s q l → l.length = q * s := by
  intro q l h
  induction h with
  | nil => simp
  | cons r t q hr _ _ iht =>
    rw [List.length_append, hr, iht]
    ring

theorem sortChunksA_runs {α : Type} [LinearOrder α] (s : Nat) : ∀ (k : Nat) (l : List α),
    l.length = k * s → Runs s k (sortChunksA (α := α) (· ≤ ·) s k l) := by
  intro k
  induction k with
  | zero =>
    intro l hl
    have : l = [] := List.length_eq_zero.mp (by simpa using hl)
    subst this
    exact Runs.nil
  | succ k ih =>
    intro l hl
    have hsl : s ≤ l.length := by
      have : 1 * s ≤ (k + 1) * s := Nat.mul_le_mul_right _ (by omega)
      omega
    show Runs s (k + 1)
      (List.insertionSort (· ≤ ·) (l.take s) ++ sortChunksA (· ≤ ·) s k (l.drop s))
    refine Runs.cons _ _ _ ?_ (List.sorted_insertionSort _ _) ?_
    · rw [List.length_insertionSort, List.length_take]
      omega
    · refine ih (l.drop s) ?_
      rw [List.length_drop]
      have hh : (k + 1) * s = k * s + s := by ring
      omega

theorem roundStepA_runs {α : Type} [LinearOrder α] (s : Nat) (hs : 0 < s) :
    ∀ (q : Nat) (l : List α), Runs s (2 * q) l →
    Runs (2 * s) q (roundStepA leOrd (2 * s) q l) := by
  intro q
  induction q with
  | zero =>
    intro l hl
    cases hl
    exact Runs.nil
  | succ q ih =>
    intro l hl
    have h2q : 2 * (q + 1) = (2 * q + 1) + 1 := by ring
    rw [h2q] at hl
    rcases hl with _ | ⟨r1, t1, _, hr1, hs1, hl1⟩
    rcases hl1 with _ | ⟨r2, t, _, hr2, hs2, ht⟩
    have h12 : (r1 ++ r2).length = 2 * s := by
      rw [List.length_append, hr1, hr2]
      ring
    have hassoc : r1 ++ (r2 ++ t) = (r1 ++ r2) ++ t := (List.append_assoc _ _ _).symm
    show Runs (2 * s) (q + 1)
      (windowMerge leOrd (2 * s) ((r1 ++ (r2 ++ t)).take (2 * s)) ++
        roundStepA leOrd (2 * s) q ((r1 ++ (r2 ++ t)).drop (2 * s)))
    rw [hassoc, List.take_left' h12, List.drop_left' h12]
    have hwm : windowMerge leOrd (2 * s) (r1 ++ r2) = merge2A leOrd (2 * s) r1 r2 := by
      unfold windowMerge
      have hhs : 2 * s / 2 = s := by omega
      rw [hhs, List.take_left' hr1, List.drop_left' hr1]
    rw [hwm]
    refine Runs.cons _ _ _ ?_ ?_ (ih t ht)
    · rw [merge2A_length, hr1, hr2]
      ring
    · exact merge2A_sorted (2 * s) r1 r2 (by omega) hs1 hs2

theorem mergeRoundsA_sorted {α : Type} [LinearOrder α] : ∀ (j f p s : Nat) (l : List α),
    p = 2 ^ j → p ≤ f → 0 < s → Runs s p l →
    List.Sorted (· ≤ ·) (mergeRoundsA leOrd f p s l) := by
  intro j
  induction j with
  | zero =>
    intro f p s l hp hf hs hruns
    subst hp
    rw [mergeRoundsA_small leOrd f _ s l (by norm_num)]
    rcases hruns with _ | ⟨r, t, _, hr, hsr, ht⟩
    cases ht
    rw [List.append_nil]
    exact hsr
  | succ j ih =>
    intro f p s l hp hf hs hruns
    subst hp
    have h2 : (2:Nat) ≤ 2 ^ (j + 1) := by
      have : (2:Nat) ^ 1 ≤ 2 ^ (j + 1) := Nat.pow_le_pow_right (by norm_num) (by omega)
      simpa using this
    obtain ⟨f', rfl⟩ : ∃ f', f = f' + 1 := ⟨f - 1, by omega⟩
    show List.Sorted (· ≤ ·) (if (2:Nat) ^ (j + 1) ≤ 1 then l else
      mergeRoundsA leOrd f' (2 ^ (j + 1) / 2) (s * 2)
        (roundStepA leOrd (s * 2) (2 ^ (j + 1) / 2) l))
    rw [if_neg (by omega), pow2_half (by omega)]
    have hsimp : (j + 1) - 1 = j := by omega
    rw [hsimp]
    have hruns2 : Runs s (2 * 2 ^ j) l := by
      have : (2:Nat) ^ (j + 1) = 2 * 2 ^ j := by ring
      rwa [this] at hruns
    have hstep := roundStepA_runs s hs (2 ^ j) l hruns2
    have hcomm : s * 2 = 2 * s := by ring
    rw [hcomm]
    refine ih f' (2 ^ j) (2 * s) _ rfl ?_ (by omega) hstep
    have : (2:Nat) ^ j < 2 ^ (j + 1) := by
      have h3 : (2:Nat) ^ (j + 1) = 2 * 2 ^ j := by ring
      have h4 : (0:Nat) < 2 ^ j := pow_pos (by norm_num) j
      omega
    omega

theorem coerceParPS_eq (p : Nat) : coerceParPS p = coercePar p := by
  unfold coerceParPS
  by_cases h : p < 1
  · have hp : p = 0 := by omega
    subst hp
    rw [if_pos (by omega)]
    rfl
  · rw [if_neg h]

theorem psParams_facts (K j : Nat) :
    ∃ j', (psParams (2 ^ K) (2 ^ j)).1 = 2 ^ j' ∧
      (psParams (2 ^ K) (2 ^ j)).1 * (psParams (2 ^ K) (2 ^ j)).2 = 2 ^ K ∧
      0 < (psParams (2 ^ K) (2 ^ j)).2 := by
  unfold psParams
  by_cases h : 2 ^ K / 2 ^ j < 1
  · rw [if_pos h]
    exact ⟨K, rfl, mul_one _, by norm_num⟩
  · rw [if_neg h]
    have hj : j ≤ K := by
      by_contra hcon
      push_neg at hcon
      have hlt : (2:Nat) ^ K < 2 ^ j := Nat.pow_lt_pow_right (by norm_num) hcon
      have := Nat.div_eq_of_lt hlt
      omega
    have hdiv : (2:Nat) ^ K / 2 ^ j = 2 ^ (K - j) := Nat.pow_div hj (by norm_num)
    refine ⟨j, rfl, ?_, ?_⟩
    · show 2 ^ j * (2 ^ K / 2 ^ j) = 2 ^ K
      rw [hdiv, ← pow_add]
      congr 1
      omega
    · show 0 < 2 ^ K / 2 ^ j
      omega

/-- `parallel_sort` with a requested parallelism of at most 128 computes
the canonical sorted permutation. -/
theorem parallelSortL_canon {α : Type} [LinearOrder α] (l : List α) (P : Nat)
    (hP : P ≤ 128) :
    parallelSortL l P = List.insertionSort (· ≤ ·) l := by
  cases l with
  | nil => rfl
  | cons x xs =>
    obtain ⟨K, hK⟩ := nextPow2_pow2 (x :: xs).length
    have hplen : (padPow2 gtOrd x xs).length = 2 ^ K := by rw [padPow2_length, hK]
    obtain ⟨j, hj⟩ := nextPow2_pow2 P
    have hco : coerceParPS P = 2 ^ j := by rw [coerceParPS_eq, coercePar_le_128 P hP, hj]
    obtain ⟨j', h1, h2, h3⟩ := psParams_facts K j
    rw [← hplen, ← hco] at h1 h2 h3
    have hruns := sortChunksA_runs
      (psParams (padPow2 gtOrd x xs).length (coerceParPS P)).2
      (psParams (padPow2 gtOrd x xs).length (coerceParPS P)).1 (padPow2 gtOrd x xs) h2.symm
    have hsorted := mergeRoundsA_sorted j' _ _ _ _ h1 le_rfl h3 hruns
    have hperm : List.Perm
        (mergeRoundsA leOrd (psParams (padPow2 gtOrd x xs).length (coerceParPS P)).1
          (psParams (padPow2 gtOrd x xs).length (coerceParPS P)).1
          (psParams (padPow2 gtOrd x xs).length (coerceParPS P)).2
          (sortChunksA (· ≤ ·) (psParams (padPow2 gtOrd x xs).length (coerceParPS P)).2
            (psParams (padPow2 gtOrd x xs).length (coerceParPS P)).1 (padPow2 gtOrd x xs)))
        (padPow2 gtOrd x xs) :=
      (mergeRoundsA_perm leOrd _ _ _ _).trans (sortChunksA_perm (· ≤ ·) _ _ _)
    show (mergeRoundsA leOrd (psParams (padPow2 gtOrd x xs).length (coerceParPS P)).1
        (psParams (padPow2 gtOrd x xs).length (coerceParPS P)).1
        (psParams (padPow2 gtOrd x xs).length (coerceParPS P)).2
        (sortChunksA (· ≤ ·) (psParams (padPow2 gtOrd x xs).length (coerceParPS P)).2
          (psParams (padPow2 gtOrd x xs).length (coerceParPS P)).1
          (padPow2 gtOrd x xs))).take (x :: xs).length = _
    refine take_canon (x :: xs) (foldMax gtOrd x (x :: xs))
      (nextPow2 (x :: xs).length - (x :: xs).length) _ hsorted ?_ ?_
    · exact hperm.trans (by rw [padPow2_eq gtOrd x xs])
    · exact foldMax_bounds gtOrd hpick_gt x xs

/-! ## Already-sorted inputs pass through `parallel_sort` unchanged, for
every parallelism value (even the broken coercions): every phase fixes
sorted data -/

section SortedId

variable {α : Type} [LinearOrder α]

theorem insertionSort_sorted_id {l : List α} (h : List.Sorted (· ≤ ·) l) :
    List.insertionSort (· ≤ ·) l = l :=
  List.eq_of_perm_of_sorted (List.perm_insertionSort _ l)
    (List.sorted_insertionSort _ l) h

theorem sortChunksA_sorted_id (s : Nat) : ∀ (k : Nat) (l : List α),
    List.Sorted (· ≤ ·) l → sortChunksA (α := α) (· ≤ ·) s k l = l := by
  intro k
  induction k with
  | zero => intro l _; rfl
  | succ k ih =>
    intro l hl
    show List.insertionSort (· ≤ ·) (l.take s) ++ sortChunksA (· ≤ ·) s k (l.drop s) = l
    rw [insertionSort_sorted_id (hl.sublist (List.take_sublist _ _)),
      ih (l.drop s) (hl.sublist (List.drop_sublist _ _)), List.take_append_drop]

theorem merge2A_sorted_id : ∀ (f : Nat) (xs ys : List α),
    List.Sorted (· ≤ ·) (xs ++ ys) → merge2A leOrd f xs ys = xs ++ ys := by
  intro f
  induction f with
  | zero => intro xs ys _; rfl
  | succ f ih =>
    intro xs ys h
    cases xs with
    | nil => rfl
    | cons x xs =>
      cases ys with
      | nil =>
        show x :: xs = (x :: xs) ++ []
        rw [List.append_nil]
      | cons y ys =>
        have hxy : x ≤ y :=
          List.rel_of_sorted_cons h y (by
            refine List.mem_append.mpr (Or.inr ?_)
            exact List.mem_cons_self y ys)
        show (if leOrd x y then x :: merge2A leOrd f xs (y :: ys)
          else y :: merge2A leOrd f (x :: xs) ys) = (x :: xs) ++ (y :: ys)
        rw [if_pos (leOrd_eq_true hxy), ih xs (y :: ys) h.of_cons]
        rfl

theorem windowMerge_sorted_id (s : Nat) (w : List α) (h : List.Sorted (· ≤ ·) w) :
    windowMerge leOrd s w = w := by
  unfold windowMerge
  rw [merge2A_sorted_id s _ _ (by rw [List.take_append_drop]; exact h),
    List.take_append_drop]

theorem roundStepA_sorted_id (s : Nat) : ∀ (k : Nat) (l : List α),
    List.Sorted (· ≤ ·) l → roundStepA leOrd s k l = l := by
  intro k
  induction k with
  | zero => intro l _; rfl
  | succ k ih =>
    intro l hl
    show windowMerge leOrd s (l.take s) ++ roundStepA leOrd s k (l.drop s) = l
    rw [windowMerge_sorted_id s _ (hl.sublist (List.take_sublist _ _)),
      ih (l.drop s) (hl.sublist (List.drop_sublist _ _)), List.take_append_drop]

theorem mergeRoundsA_sorted_id : ∀ (f p s : Nat) (l : List α),
    List.Sorted (· ≤ ·) l → mergeRoundsA leOrd f p s l = l := by
  intro f
  induction f with
  | zero => intro p s l _; rfl
  | succ f ih =>
    intro p s l hl
    by_cases h1 : p ≤ 1
    · exact mergeRoundsA_small leOrd _ _ _ _ h1
    · show (if p ≤ 1 then l else mergeRoundsA leOrd f (p / 2) (s * 2)
        (roundStepA leOrd (s * 2) (p / 2) l)) = l
      rw [if_neg h1, roundStepA_sorted_id _ _ _ hl, ih _ _ _ hl]

theorem padPow2_sorted (x : α) (xs : List α) (h : List.Sorted (· ≤ ·) (x :: xs)) :
    List.Sorted (· ≤ ·) (padPow2 gtOrd x xs) := by
  rw [padPow2_eq]
  rw [List.Sorted, List.pairwise_append]
  refine ⟨h, List.pairwise_replicate.mpr (Or.inr le_rfl), ?_⟩
  intro a ha b hb
  rw [List.eq_of_mem_replicate hb]
  exact foldMax_bounds gtOrd hpick_gt x xs a ha

/-- For every requested parallelism (the whole `u8` range and beyond),
`parallel_sort` maps an already-sorted buffer to itself. -/
theorem parallelSortL_sorted_id (l : List α) (P : Nat) (h : List.Sorted (· ≤ ·) l) :
    parallelSortL l P = l := by
  cases l with
  | nil => rfl
  | cons x xs =>
    have hpad := padPow2_sorted x xs h
    show (mergeRoundsA leOrd (psParams (padPow2 gtOrd x xs).length (coerceParPS P)).1
        (psParams (padPow2 gtOrd x xs).length (coerceParPS P)).1
        (psParams (padPow2 gtOrd x xs).length (coerceParPS P)).2
        (sortChunksA (· ≤ ·) (psParams (padPow2 gtOrd x xs).length (coerceParPS P)).2
          (psParams (padPow2 gtOrd x xs).length (coerceParPS P)).1
          (padPow2 gtOrd x xs))).take (x :: xs).length = x :: xs
    rw [sortChunksA_sorted_id _ _ _ hpad, mergeRoundsA_sorted_id _ _ _ _ hpad]
    rw [padPow2_eq, List.take_left' rfl]

end SortedId

/-! ## Partial comparisons and the panic of `parallel_sort`

`parallel_sort`'s phase 1 sorts each chunk with
`sort_unstable_by(|x, y| x.partial_cmp(y).expect("float error!"))`
(`src/src/parallel_sort.rs:41`): the comparator panics on an incomparable
pair.  `partial_cmp` is modelled as `α → α → Option Ordering` and a panic
as `none` for the whole call (a panicking scoped thread propagates at the
join).  The standard library's unstable comparison sort is external code;
it is modelled as an insertion sort driven by the same comparator — on the
two-element chunks used below every comparison sort must invoke the
comparator on the unique pair, so the model is faithful there.  Phase 2
compares with `<=` (`PartialOrd::le`, a total boolean test that is `false`
on incomparable values) and cannot panic; the bitonic engines only use the
boolean `>` / `>=` and cannot panic either. -/

/-- `PartialOrd::gt` derived from `partial_cmp`. -/
def gtF {α : Type} (pc : α → α → Option Ordering) : α → α → Bool :=
  fun a b => pc a b == some Ordering.gt

/-- `PartialOrd::ge` derived from `partial_cmp`. -/
def geF {α : Type} (pc : α → α → Option Ordering) : α → α → Bool :=
  fun a b => pc a b == some Ordering.gt || pc a b == some Ordering.eq

/-- `PartialOrd::le` derived from `partial_cmp`. -/
def leF {α : Type} (pc : α → α → Option Ordering) : α → α → Bool :=
  fun a b => pc a b == some Ordering.lt || pc a b == some Ordering.eq

/-- Insertion step of the fallible comparison sort; `none` once the
comparator is undefined on a compared pair. -/
def insertOrdF {α : Type} (pc : α → α → Option Ordering) (x : α) :
    List α → Option (List α)
  | [] => some [x]
  | y :: ys =>
    match pc x y with
    | none => none
    | some o =>
      if o = Ordering.gt then (insertOrdF pc x ys).map (fun t => y :: t)
      else some (x :: y :: ys)

/-- Model of `slice::sort_unstable_by` with a fallible comparator. -/
def sortUnstableF {α : Type} (pc : α → α → Option Ordering) : List α → Option (List α)
  | [] => some []
  | x :: xs => (sortUnstableF pc xs).bind (insertOrdF pc x)

/-- Phase 1 of `parallel_sort` with the fallible comparator. -/
def sortChunksFA {α : Type} (pc : α → α → Option Ordering) (size : Nat) :
    Nat → List α → Option (List α)
  | 0, l => some l
  | k + 1, l =>
    (sortUnstableF pc (l.take size)).bind fun c =>
      (sortChunksFA pc size k (l.drop size)).map (fun t => c ++ t)

/-- `parallel_sort::parallel_sort` with the fallible comparator of the
source: `none` models the panic `"float error!"`. -/
def parallelSortF {α : Type} (pc : α → α → Option Ordering) (l : List α) (P : Nat) :
    Option (List α) :=
  match l with
  | [] => some []
  | x :: xs =>
    let padded := padPow2 (gtF pc) x xs
    let ps := psParams padded.length (coerceParPS P)
    (sortChunksFA pc ps.2 ps.1 padded).map fun phase1 =>
      (mergeRoundsA (leF pc) ps.1 ps.1 ps.2 phase1).take (x :: xs).length

/-- A NaN-like domain: `none` plays `f64::NAN`, `partial_cmp` is undefined
whenever a NaN is involved (as for Rust floats). -/
def pcO : Option Nat → Option Nat → Option Ordering
  | some a, some b => some (compare a b)
  | _, _ => none

/-! ## Index-range geometry of the spawned tasks (claim C7)

`__bitonic_merge` (`src/src/bitonic_parallel.rs:85-104`) spawns, for
`parallel > 1`, tasks `i < parallel` owning
`slice1 = [i*size, (i+1)*size)` and
`slice2 = [len/2 + i*size, len/2 + (i+1)*size)` after the
`(parallel, size)` fallback; `parallel_sort` phase 1 spawns chunks
`[i*size, (i+1)*size)` for `i < parallel` and each merge round spawns
windows `[i*size, (i+1)*size)` for `i < parallel` after halving/doubling. -/

/-- The `(parallel, size)` pair used by the parallel bitonic merge
(`src/src/bitonic_parallel.rs:77-81`). -/
def bpMergeGeom (len p : Nat) : Nat × Nat :=
  let size := len / (2 * p)
  if size = 0 then (len / 2, 1) else (p, size)

/-- First slice of merge task `i`: `[i*size, (i+1)*size)`. -/
def bpTask1 (len p i : Nat) : Nat × Nat :=
  (i * (bpMergeGeom len p).2, (i + 1) * (bpMergeGeom len p).2)

/-- Second slice of merge task `i`: `[len/2 + i*size, len/2 + (i+1)*size)`. -/
def bpTask2 (len p i : Nat) : Nat × Nat :=
  (len / 2 + i * (bpMergeGeom len p).2, len / 2 + (i + 1) * (bpMergeGeom len p).2)

/-- Chunk of `parallel_sort` thread `i` (phase 1), and merge window of
thread `i` in a round with window width `size`. -/
def psTask (size i : Nat) : Nat × Nat :=
  (i * size, (i + 1) * size)

theorem bpMergeGeom_le_half (len p : Nat) :
    (bpMergeGeom len p).1 * (bpMergeGeom len p).2 ≤ len / 2 := by
  unfold bpMergeGeom
  by_cases h : len / (2 * p) = 0
  · rw [if_pos h]
    simp
  · rw [if_neg h]
    show p * (len / (2 * p)) ≤ len / 2
    have h1 : len / (2 * p) = len / 2 / p := by
      rw [Nat.div_div_eq_div_mul]
    rw [h1, mul_comm]
    exact Nat.div_mul_le_self _ _

/-! ## Remaining helper lemmas -/

theorem foldMax_mem {α : Type} [LinearOrder α] (pick : α → α → Bool)
    (hpick : ∀ a b : α, if pick a b then b ≤ a else a ≤ b) (x : α) (xs : List α) :
    foldMax pick x (x :: xs) ∈ x :: xs := by
  rw [foldMax_eq_foldl_max pick hpick]
  rcases List.mem_cons.mp (foldl_max_mem (x :: xs) x) with h | h
  · rw [h]
    exact List.mem_cons_self x xs
  · exact h

theorem nextPow2_ge_256 (p : Nat) (h : 129 ≤ p) : 256 ≤ nextPow2 p := by
  obtain ⟨k, hk⟩ := nextPow2_pow2 p
  have hp := le_nextPow2 p
  by_cases hk8 : 8 ≤ k
  · calc (256 : Nat) = 2 ^ 8 := by norm_num
      _ ≤ 2 ^ k := Nat.pow_le_pow_right (by norm_num) hk8
      _ = nextPow2 p := hk.symm
  · push_neg at hk8
    have h7 : (2 : Nat) ^ k ≤ 2 ^ 7 := Nat.pow_le_pow_right (by norm_num) (by omega)
    have h128 : (2 : Nat) ^ 7 = 128 := by norm_num
    omega

/-- For a requested parallelism in `[129, 255]`, `unwrap_or(u8::MAX)` fires:
the coerced value is 255, which is not a power of two. -/
theorem coercePar_129_up (p : Nat) (h1 : 129 ≤ p) : coercePar p = 255 := by
  have h := nextPow2_ge_256 p h1
  unfold coercePar
  rw [if_neg (by omega)]

/-- On a pair whose comparison is undefined, phase 1 of `parallel_sort`
panics (the whole call is `none`): the chunk sort invokes
`partial_cmp(..).expect("float error!")` on the pair. -/
theorem parallelSortF_pair_panic {β : Type} (pc : β → β → Option Ordering) (x y : β)
    (h : pc x y = none) : parallelSortF pc [x, y] 1 = none := by
  have h1 : sortUnstableF pc [x, y] = none := by
    show insertOrdF pc x [y] = none
    show (match pc x y with
      | none => none
      | some o => if o = Ordering.gt then (insertOrdF pc x []).map (fun t => y :: t)
          else some (x :: y :: [])) = none
    rw [h]
  have hpad : padPow2 (gtF pc) x [y] = [x, y] := by
    simp [padPow2, show isPow2 (2 : Nat) = true from by decide]
  simp only [parallelSortF, hpad]
  simp only [List.length_cons, List.length_nil]
  have hps : psParams 2 (coerceParPS 1) = (1, 2) := by decide
  rw [hps]
  show (sortChunksFA pc 2 1 [x, y]).map
      (fun phase1 => (mergeRoundsA (leF pc) 1 1 2 phase1).take 2) = none
  show ((sortUnstableF pc (List.take 2 [x, y])).bind fun c =>
    (sortChunksFA pc 2 0 (List.drop 2 [x, y])).map (fun t => c ++ t)).map
      (fun phase1 => (mergeRoundsA (leF pc) 1 1 2 phase1).take 2) = none
  rw [show List.take 2 [x, y] = [x, y] from rfl, h1]
  rfl

/-- One unfolding step of the parallel bitonic recursion (used to stage
the kernel evaluation of the C5 counterexample). -/
theorem bsortPA_step {α : Type} (gt : α → α → Bool) (f : Nat) (rev : Bool) (p : Nat)
    (l : List α) (h1 : ¬ l.length ≤ 1) (h2 : ¬ p ≤ 1) :
    bsortPA gt (f + 1) rev p l =
      mergeLoopP gt rev p l.length
        (bsortPA gt f false (p / 2) (l.take (l.length / 2)) ++
          bsortPA gt f true (p / 2) (l.drop (l.length / 2))) := by
  show (if l.length ≤ 1 then l
    else mergeLoopP gt rev p l.length
      (bsortPA gt f false (if p ≤ 1 then p else p / 2) (l.take (l.length / 2)) ++
        bsortPA gt f true (if p ≤ 1 then p else p / 2) (l.drop (l.length / 2)))) = _
  rw [if_neg h1, if_neg h2]

/-! ## The claims -/

set_option maxRecDepth 100000 in
set_option maxHeartbeats 10000000 in
/-- C1 (counterexample): with the in-range parallelism value `P = 255`
(coerced to `255`, which is not a power of two), `parallel_sort` fails to
sort the 256-element buffer `0^254 ++ [1, 0]` — the output is not
non-decreasing, refuting the claim for `P ∈ [129, 255]`. -/
theorem C1_counterexample :
    ¬ List.Sorted (· ≤ ·)
      (parallelSortL (List.replicate 254 false ++ [true, false]) 255) := by
  decide

/-- C1 (amended: parallelism restricted to `[0, 128]`): for every list over
a linear order and every `P ≤ 128`, each of the three engines returns a
non-decreasing permutation of its input. -/
theorem C1_sorts {α : Type} [LinearOrder α] (l : List α) (P : Nat) (hP : P ≤ 128) :
    (List.Sorted (· ≤ ·) (bitonicSerialSort l) ∧ List.Perm (bitonicSerialSort l) l) ∧
    (List.Sorted (· ≤ ·) (bitonicParallelSort l P) ∧
      List.Perm (bitonicParallelSort l P) l) ∧
    (List.Sorted (· ≤ ·) (parallelSortL l P) ∧ List.Perm (parallelSortL l P) l) := by
  refine ⟨⟨?_, ?_⟩, ⟨?_, ?_⟩, ⟨?_, ?_⟩⟩
  · rw [bitonicSerialSort_canon]
    exact List.sorted_insertionSort _ l
  · rw [bitonicSerialSort_canon]
    exact List.perm_insertionSort _ l
  · rw [bitonicParallelSort_canon l P hP]
    exact List.sorted_insertionSort _ l
  · rw [bitonicParallelSort_canon l P hP]
    exact List.perm_insertionSort _ l
  · rw [parallelSortL_canon l P hP]
    exact List.sorted_insertionSort _ l
  · rw [parallelSortL_canon l P hP]
    exact List.perm_insertionSort _ l

theorem C1_sorts_witness :
    List.Sorted (· ≤ ·) (bitonicSerialSort ([4, 2, 7, 1, 5] : List Nat)) ∧
    List.Perm (parallelSortL ([4, 2, 7, 1, 5] : List Nat) 2) [4, 2, 7, 1, 5] :=
  ⟨(C1_sorts [4, 2, 7, 1, 5] 2 (by decide)).1.1,
   (C1_sorts [4, 2, 7, 1, 5] 2 (by decide)).2.2.2⟩

set_option maxRecDepth 100000 in
set_option maxHeartbeats 10000000 in
/-- C2 (counterexample): the output of `parallel_sort` on the 256-element
buffer `0^254 ++ [1, 0]` differs between the in-range parallelism values
`P1 = 2` and `P2 = 255`, refuting output-independence over `[0, 255]`. -/
theorem C2_counterexample :
    parallelSortL (List.replicate 254 false ++ [true, false]) 2 ≠
      parallelSortL (List.replicate 254 false ++ [true, false]) 255 := by
  decide

/-- C2 (amended: parallelism restricted to `[0, 128]`): for `P1, P2 ≤ 128`
the parallel bitonic engine is independent of the parallelism value and
agrees with the serial engine, and `parallel_sort` is independent of the
parallelism value. -/
theorem C2_deterministic {α : Type} [LinearOrder α] (l : List α) (P1 P2 : Nat)
    (h1 : P1 ≤ 128) (h2 : P2 ≤ 128) :
    bitonicParallelSort l P1 = bitonicParallelSort l P2 ∧
    bitonicParallelSort l P1 = bitonicSerialSort l ∧
    parallelSortL l P1 = parallelSortL l P2 := by
  refine ⟨?_, ?_, ?_⟩
  · rw [bitonicParallelSort_canon l P1 h1, bitonicParallelSort_canon l P2 h2]
  · rw [bitonicParallelSort_canon l P1 h1, bitonicSerialSort_canon]
  · rw [parallelSortL_canon l P1 h1, parallelSortL_canon l P2 h2]

theorem C2_deterministic_witness :
    bitonicParallelSort ([3, 1, 2] : List Nat) 4 = bitonicSerialSort [3, 1, 2] :=
  (C2_deterministic [3, 1, 2] 4 7 (by decide) (by decide)).2.1

/-- C3: each of the three engines returns a buffer of exactly the input
length, for every input and every parallelism value — the internal padding
is always truncated away. -/
theorem C3_length_preserved {α : Type} [LinearOrder α] (l : List α) (P : Nat) :
    (bitonicSerialSort l).length = l.length ∧
    (bitonicParallelSort l P).length = l.length ∧
    (parallelSortL l P).length = l.length :=
  ⟨bitonicSerialG_length gtOrd geOrd l, bitonicParallelG_length gtOrd l P,
   parallelSortL_length l P⟩

/-- C4 (counterexample): the coercion is `checked_next_power_of_two`, i.e.
it rounds UP: a request of 3 becomes 4 (not the claimed nearest power of
two below, 2), so the coerced value exceeds the request; and a request of
200 saturates to `u8::MAX = 255`, which is not a power of two at all. -/
theorem C4_counterexample :
    coercePar 3 = 4 ∧ ¬ coercePar 3 ≤ 3 ∧
    coercePar 200 = 255 ∧ isPow2 (coercePar 200) = false ∧
    coerceParPS 200 = 255 := by
  decide

/-- C4 (amended): both engines use the same coercion; for requests up to
128 it is the LEAST power of two greater than or equal to the request
(minimum 1), and for requests in `[129, 255]` it saturates to 255, which
is not a power of two. -/
theorem C4_coercion (p : Nat) :
    coerceParPS p = coercePar p ∧
    (p ≤ 128 → (∃ k, coercePar p = 2 ^ k) ∧ 1 ≤ coercePar p ∧ p ≤ coercePar p ∧
      (∀ k, p ≤ 2 ^ k → coercePar p ≤ 2 ^ k)) ∧
    (129 ≤ p → p ≤ 255 → coercePar p = 255) := by
  refine ⟨coerceParPS_eq p, fun hp => ?_, fun h1 h2 => coercePar_129_up p h1⟩
  rw [coercePar_le_128 p hp]
  exact ⟨nextPow2_pow2 p, nextPow2_pos p, le_nextPow2 p,
    fun k hk => nextPow2_le_pow2 p k hk⟩

theorem C4_coercion_witness :
    coerceParPS 5 = coercePar 5 ∧ 5 ≤ coercePar 5 ∧ coercePar 200 = 255 :=
  ⟨(C4_coercion 5).1, ((C4_coercion 5).2.1 (by decide)).2.2.1,
   (C4_coercion 200).2.2 (by decide) (by decide)⟩

set_option maxRecDepth 1000000 in
set_option maxHeartbeats 40000000 in
/-- C5 (counterexample): a padding sentinel leaks.  The 268-element buffer
`[1] ++ 0^267` (length not a power of two; maximum present: `true`, once)
is padded to 512 with 244 copies of `true`; with the in-range parallelism
`P = 255` (coerced to 255, not a power of two) the parallel bitonic
engine's truncated output contains the maximum twice — a padding sentinel
appears in the final output.  The evaluation is staged (pad, two half
sorts, merge cascade, truncation) so that each `decide` stays small. -/
theorem C5_counterexample :
    isPow2 (true :: List.replicate 267 false : List Bool).length = false ∧
    (true :: List.replicate 267 false : List Bool).count true = 1 ∧
    (bitonicParallelSort (true :: List.replicate 267 false) 255).count true = 2 := by
  refine ⟨by decide, by decide, ?_⟩
  have hmax : foldMax gtOrd true (true :: List.replicate 267 false) = true :=
    le_antisymm (Bool.le_true _)
      (foldMax_bounds gtOrd hpick_gt true (List.replicate 267 false) true
        (List.mem_cons_self _ _))
  have hpad : padPow2 gtOrd true (List.replicate 267 false) =
      (true :: List.replicate 267 false) ++ List.replicate 244 true := by
    rw [padPow2_eq, hmax, show (true :: List.replicate 267 false).length = 268 from by decide,
      show nextPow2 268 - 268 = 244 from by decide]
  have htk : ((true :: List.replicate 267 false) ++ List.replicate 244 true).take 256 =
      true :: List.replicate 255 false := by decide
  have hdp : ((true :: List.replicate 267 false) ++ List.replicate 244 true).drop 256 =
      List.replicate 12 false ++ List.replicate 244 true := by decide
  have hA : bsortPA gtOrd 511 false 127 (true :: List.replicate 255 false) =
      List.replicate 255 false ++ [true] := by decide
  have hB : bsortPA gtOrd 511 true 127 (List.replicate 12 false ++ List.replicate 244 true) =
      List.replicate 243 true ++ [false, true] ++ List.replicate 11 false := by decide
  have hcas : mergeLoopP gtOrd false 255 512
      ((List.replicate 255 false ++ [true]) ++
        (List.replicate 243 true ++ [false, true] ++ List.replicate 11 false)) =
      List.replicate 255 false ++ [true] ++ List.replicate 11 false ++ [true] ++ [false] ++
        List.replicate 243 true := by decide
  show ((bsortPG gtOrd false (coercePar 255)
      (padPow2 gtOrd true (List.replicate 267 false))).take
        (true :: List.replicate 267 false).length).count true = 2
  rw [hpad, show coercePar 255 = 255 from by decide,
    show (true :: List.replicate 267 false).length = 268 from by decide]
  show ((bsortPA gtOrd ((true :: List.replicate 267 false) ++ List.replicate 244 true).length
      false 255 ((true :: List.replicate 267 false) ++ List.replicate 244 true)).take
        268).count true = 2
  rw [show ((true :: List.replicate 267 false) ++ List.replicate 244 true).length = 512
    from by decide]
  rw [bsortPA_step gtOrd 511 false 255 _ (by decide) (by decide)]
  rw [show ((true :: List.replicate 267 false) ++ List.replicate 244 true).length = 512
    from by decide]
  rw [show (512 : Nat) / 2 = 256 from by decide, show (255 : Nat) / 2 = 127 from by decide]
  rw [htk, hdp, hA, hB, hcas]
  decide

/-- C5 (amended: parallelism restricted to `[0, 128]`): on a non-empty
buffer of non-power-of-two length every engine pads, up to the next power
of two, with the fold-maximum of the buffer — which is an element of the
buffer and an upper bound of it (not a type-bound maximum; the serial
engine folds with `>=`, the parallel ones with `>`, with the same result)
— and no sentinel leaks: each engine's output is a permutation of the
input, so the maximum occurs exactly as often as in the input. -/
theorem C5_padding {α : Type} [LinearOrder α] (x : α) (xs : List α) (P : Nat)
    (hP : P ≤ 128) (hnp : isPow2 (x :: xs).length = false) :
    (x :: xs).length < nextPow2 (x :: xs).length ∧
    padPow2 geOrd x xs = (x :: xs) ++ List.replicate
      (nextPow2 (x :: xs).length - (x :: xs).length) (foldMax geOrd x (x :: xs)) ∧
    padPow2 gtOrd x xs = (x :: xs) ++ List.replicate
      (nextPow2 (x :: xs).length - (x :: xs).length) (foldMax gtOrd x (x :: xs)) ∧
    foldMax geOrd x (x :: xs) ∈ x :: xs ∧
    foldMax gtOrd x (x :: xs) ∈ x :: xs ∧
    (∀ y ∈ x :: xs, y ≤ foldMax geOrd x (x :: xs)) ∧
    (∀ y ∈ x :: xs, y ≤ foldMax gtOrd x (x :: xs)) ∧
    List.Perm (bitonicSerialSort (x :: xs)) (x :: xs) ∧
    List.Perm (bitonicParallelSort (x :: xs) P) (x :: xs) ∧
    List.Perm (parallelSortL (x :: xs) P) (x :: xs) := by
  refine ⟨?_, padPow2_eq geOrd x xs, padPow2_eq gtOrd x xs,
    foldMax_mem geOrd hpick_ge x xs, foldMax_mem gtOrd hpick_gt x xs,
    foldMax_bounds geOrd hpick_ge x xs, foldMax_bounds gtOrd hpick_gt x xs,
    ?_, ?_, ?_⟩
  · have h1 := le_nextPow2 (x :: xs).length
    have h2 : ¬ ((x :: xs).length = nextPow2 (x :: xs).length) := by
      simp only [isPow2, beq_eq_false_iff_ne, ne_eq] at hnp
      exact hnp
    omega
  · rw [bitonicSerialSort_canon]
    exact List.perm_insertionSort _ _
  · rw [bitonicParallelSort_canon _ _ hP]
    exact List.perm_insertionSort _ _
  · rw [parallelSortL_canon _ _ hP]
    exact List.perm_insertionSort _ _

theorem C5_padding_witness :
    ((2 : Nat) :: [0, 1]).length < nextPow2 ((2 : Nat) :: [0, 1]).length ∧
    foldMax geOrd (2 : Nat) (2 :: [0, 1]) ∈ (2 : Nat) :: [0, 1] :=
  ⟨(C5_padding 2 [0, 1] 3 (by decide) (by decide)).1,
   (C5_padding 2 [0, 1] 3 (by decide) (by decide)).2.2.2.1⟩

/-- C6 (counterexample): on the NaN-containing buffer `[NaN, 1]` both
bitonic engines run the undefined comparison (`NaN > 1` is `false`) and
complete normally, returning the buffer — they do not abort — while
`parallel_sort` does panic.  This refutes the claim that every engine
signals an unrecoverable abort on an undefined order. -/
theorem C6_counterexample :
    bitonicSerialG (gtF pcO) (geF pcO) [none, some 1] = [none, some 1] ∧
    bitonicParallelG (gtF pcO) [none, some 1] 2 = [none, some 1] ∧
    parallelSortF pcO [none, some 1] 1 = none := by
  decide

/-- C6 (amended): only `parallel_sort` panics on an undefined order (its
phase-1 comparator is `partial_cmp(..).expect("float error!")`): sorting a
chunk containing an incomparable pair aborts the call.  The bitonic
engines compare only with the boolean `PartialOrd` tests, which are `false`
on every incomparable pair, so they have no panic site. -/
theorem C6_partial_panic {β : Type} (pc : β → β → Option Ordering) (x y : β)
    (h : pc x y = none) :
    parallelSortF pc [x, y] 1 = none ∧
    (∀ a b : β, pc a b = none →
      gtF pc a b = false ∧ geF pc a b = false ∧ leF pc a b = false) := by
  refine ⟨parallelSortF_pair_panic pc x y h, ?_⟩
  intro a b hab
  simp [gtF, geF, leF, hab]

theorem C6_partial_panic_witness :
    pcO none (some 1) = none ∧ parallelSortF pcO [none, some 1] 1 = none :=
  ⟨rfl, (C6_partial_panic pcO none (some 1) rfl).1⟩

/-- C7: the index ranges of concurrently spawned tasks are pairwise
disjoint and in bounds.  For the parallel bitonic merge with geometry
`bpMergeGeom len p = (parallel, size)`: `parallel * size ≤ len / 2`; task
`i < parallel` owns `[i*size, (i+1)*size) ⊆ [0, len/2)` and
`[len/2 + i*size, len/2 + (i+1)*size) ⊆ [len/2, len)`; tasks `i < j` own
disjoint (ordered) ranges.  For `parallel_sort`: the phase-1 chunks
`psTask size i` for `i < parallel` with `psParams len p = (parallel, size)`
cover at most `len`, are pairwise disjoint, and each merge round's halving
`q ↦ q/2` with doubling `s ↦ s*2` keeps the covered region `q*s` within
the buffer. -/
theorem C7_disjoint_ranges (len p : Nat) (hp : 2 ≤ p) :
    ((bpMergeGeom len p).1 * (bpMergeGeom len p).2 ≤ len / 2) ∧
    (∀ i, i < (bpMergeGeom len p).1 →
      (bpTask1 len p i).2 ≤ len / 2 ∧
      len / 2 ≤ (bpTask2 len p i).1 ∧ (bpTask2 len p i).2 ≤ len) ∧
    (∀ i j, i < j → (bpTask1 len p i).2 ≤ (bpTask1 len p j).1 ∧
      (bpTask2 len p i).2 ≤ (bpTask2 len p j).1) ∧
    ((psParams len p).1 * (psParams len p).2 ≤ len) ∧
    (∀ s i j, i < j → (psTask s i).2 ≤ (psTask s j).1) ∧
    (∀ q s i, i < q → (psTask s i).2 ≤ q * s) ∧
    (∀ q s L, q * s ≤ L → q / 2 * (s * 2) ≤ L) := by
  have hhalf := bpMergeGeom_le_half len p
  refine ⟨hhalf, ?_, ?_, ?_, ?_, ?_, ?_⟩
  · intro i hi
    have h1 : (i + 1) * (bpMergeGeom len p).2 ≤
        (bpMergeGeom len p).1 * (bpMergeGeom len p).2 :=
      Nat.mul_le_mul hi (le_refl _)
    have h2 : (i + 1) * (bpMergeGeom len p).2 ≤ len / 2 := le_trans h1 hhalf
    refine ⟨h2, Nat.le_add_right _ _, ?_⟩
    show len / 2 + (i + 1) * (bpMergeGeom len p).2 ≤ len
    omega
  · intro i j hij
    constructor
    · show (i + 1) * (bpMergeGeom len p).2 ≤ j * (bpMergeGeom len p).2
      exact Nat.mul_le_mul hij (le_refl _)
    · show len / 2 + (i + 1) * (bpMergeGeom len p).2 ≤
        len / 2 + j * (bpMergeGeom len p).2
      exact Nat.add_le_add_left (Nat.mul_le_mul hij (le_refl _)) _
  · unfold psParams
    by_cases h : len / p < 1
    · rw [if_pos h]
      simp
    · rw [if_neg h]
      show p * (len / p) ≤ len
      rw [mul_comm]
      exact Nat.div_mul_le_self _ _
  · intro s i j hij
    show (i + 1) * s ≤ j * s
    exact Nat.mul_le_mul hij (le_refl _)
  · intro q s i hi
    show (i + 1) * s ≤ q * s
    exact Nat.mul_le_mul hi (le_refl _)
  · intro q s L h
    calc q / 2 * (s * 2) = q / 2 * 2 * s := by ring
      _ ≤ q * s := Nat.mul_le_mul (Nat.div_mul_le_self q 2) (le_refl _)
      _ ≤ L := h

theorem C7_disjoint_ranges_witness :
    (bpMergeGeom 8 2).1 * (bpMergeGeom 8 2).2 ≤ 8 / 2 ∧
    (bpTask1 8 2 0).2 ≤ 8 / 2 :=
  ⟨(C7_disjoint_ranges 8 2 (by decide)).1,
   ((C7_disjoint_ranges 8 2 (by decide)).2.1 0 (by decide)).1⟩

set_option maxRecDepth 100000 in
set_option maxHeartbeats 10000000 in
/-- C8 (counterexample): the already-sorted 512-element buffer
`0^48 1^464` is changed by the parallel bitonic engine at the in-range
parallelism `P = 255` (coerced to 255, not a power of two), refuting the
fixed-point property over `P ∈ [0, 255]`. -/
theorem C8_counterexample :
    List.Sorted (· ≤ ·) (List.replicate 48 false ++ List.replicate 464 true) ∧
    bitonicParallelSort (List.replicate 48 false ++ List.replicate 464 true) 255 ≠
      List.replicate 48 false ++ List.replicate 464 true := by
  refine ⟨by decide, by decide⟩

/-- C8 (amended): on an already-sorted buffer the serial bitonic engine
and — for EVERY parallelism value, even the broken coercions —
`parallel_sort` return the input unchanged; the parallel bitonic engine
returns it unchanged for parallelism values up to 128. -/
theorem C8_sorted_identity {α : Type} [LinearOrder α] (l : List α) (P : Nat)
    (h : List.Sorted (· ≤ ·) l) :
    bitonicSerialSort l = l ∧ parallelSortL l P = l ∧
    (P ≤ 128 → bitonicParallelSort l P = l) := by
  refine ⟨?_, parallelSortL_sorted_id l P h, fun hP => ?_⟩
  · rw [bitonicSerialSort_canon]
    exact insertionSort_sorted_id h
  · rw [bitonicParallelSort_canon l P hP]
    exact insertionSort_sorted_id h

theorem C8_sorted_identity_witness :
    List.Sorted (· ≤ ·) ([1, 2, 3] : List Nat) ∧
    parallelSortL ([1, 2, 3] : List Nat) 200 = [1, 2, 3] :=
  ⟨by decide, (C8_sorted_identity [1, 2, 3] 200 (by decide)).2.1⟩

/-- C9: `parallel_sort`'s chunk geometry and merge schedule.  After padding
and coercion, `psParams len p = (p, len / p)` when `len / p ≥ 1`, and falls
back to `(len, 1)` when the quotient is 0 (so the chunk size is never 0 on
a non-empty buffer); each merge-round iteration with more than one run
halves the worker count and doubles the window size, and the loop stops
exactly when at most one run remains (`p ≤ 1`). -/
theorem C9_schedule (len p0 : Nat) :
    (1 ≤ len / p0 → psParams len p0 = (p0, len / p0)) ∧
    (len / p0 = 0 → psParams len p0 = (len, 1)) ∧
    (1 ≤ len → 1 ≤ (psParams len p0).2) ∧
    (∀ {β : Type} (le : β → β → Bool) (f p s : Nat) (l : List β), 2 ≤ p →
      mergeRoundsA le (f + 1) p s l =
        mergeRoundsA le f (p / 2) (s * 2) (roundStepA le (s * 2) (p / 2) l)) ∧
    (∀ {β : Type} (le : β → β → Bool) (f p s : Nat) (l : List β), p ≤ 1 →
      mergeRoundsA le f p s l = l) := by
  refine ⟨?_, ?_, ?_, ?_, ?_⟩
  · intro h
    unfold psParams
    rw [if_neg (by omega)]
  · intro h
    unfold psParams
    rw [if_pos (by omega)]
  · intro h
    unfold psParams
    by_cases hc : len / p0 < 1
    · rw [if_pos hc]
    · rw [if_neg hc]
      show 1 ≤ len / p0
      omega
  · intro β le f p s l hp
    show (if p ≤ 1 then l else mergeRoundsA le f (p / 2) (s * 2)
        (roundStepA le (s * 2) (p / 2) l)) = _
    rw [if_neg (by omega)]
  · intro β le f p s l hp
    exact mergeRoundsA_small le f p s l hp

theorem C9_schedule_witness : psParams 8 2 = (2, 4) :=
  (C9_schedule 8 2).1 (by decide)

/-- C10: for arbitrary boolean comparison functions — in particular the
`PartialOrd` tests of a NaN-like partial order, which are `false` on every
incomparable pair, as witnessed here for the float-like domain `pcO` —
both bitonic engines are total functions that restore the input length;
they contain no fallible comparison, so no panic can arise. -/
theorem C10_no_panic {β : Type} (gt ge : β → β → Bool) (l : List β) (p : Nat) :
    (bitonicSerialG gt ge l).length = l.length ∧
    (bitonicParallelG gt l p).length = l.length ∧
    (∀ y : Option Nat, gtF pcO none y = false ∧ gtF pcO y none = false ∧
      geF pcO none y = false ∧ geF pcO y none = false) := by
  refine ⟨bitonicSerialG_length gt ge l, bitonicParallelG_length gt l p, ?_⟩
  intro y
  cases y <;> exact ⟨rfl, rfl, rfl, rfl⟩
